import Mathlib

/-
Verification of the ReBuild-Intelligence mesh-geometry pipeline
(`src/backend/algorithm/geometry_pipeline.py` and
`src/backend/algorithm/obj_exporter.py`).

Coordinates are modelled exactly over the rationals; machine floats in the
source become `ℚ` here.  Where the pipeline calls `math.cos`/`math.sin` of the
cut angle, the embedded operations take the cosine/sine pair `(c, s)` as
explicit rational parameters (the pair the Python code computes), since the
claims under examination only ever constrain concrete angle instances such as
90 degrees where the pair is exactly `(0, 1)`.
-/

set_option maxRecDepth 4000

namespace ReBuild

/-- A 3D vector (exact rational model of the pipeline's float coordinates). -/
abbrev Vec3 := ℚ × ℚ × ℚ

def zeroV : Vec3 := (0, 0, 0)

def vadd (a b : Vec3) : Vec3 := (a.1 + b.1, a.2.1 + b.2.1, a.2.2 + b.2.2)

def vsub (a b : Vec3) : Vec3 := (a.1 - b.1, a.2.1 - b.2.1, a.2.2 - b.2.2)

def vsmul (t : ℚ) (a : Vec3) : Vec3 := (t * a.1, t * a.2.1, t * a.2.2)

def vdot (a b : Vec3) : ℚ := a.1 * b.1 + a.2.1 * b.2.1 + a.2.2 * b.2.2

def vcross (a b : Vec3) : Vec3 :=
  (a.2.1 * b.2.2 - a.2.2 * b.2.1,
   a.2.2 * b.1 - a.1 * b.2.2,
   a.1 * b.2.1 - a.2.1 * b.1)

/-- A triangular face: three vertex indices (`trimesh` face row). -/
abbrev Face := ℕ × ℕ × ℕ

/-- A triangle mesh: ordered vertices plus ordered triangular faces, the shape
of the `trimesh.Trimesh` data the pipeline manipulates. -/
structure Mesh where
  vertices : List Vec3
  faces : List Face
deriving DecidableEq

/-- Largest value of `sel` over the vertices minus the smallest: one component
of `mesh.bounding_box.extents`; `0` for an empty vertex list (the source
guards `extents.size`). -/
def extentAlong (sel : Vec3 → ℚ) (m : Mesh) : ℚ :=
  match m.vertices with
  | [] => 0
  | v :: vs =>
      (vs.foldl (fun a u => max a (sel u)) (sel v)) -
      (vs.foldl (fun a u => min a (sel u)) (sel v))

/-- `extents.max()` of the axis-aligned bounding box, `0` when empty. -/
def maxExtent (m : Mesh) : ℚ :=
  max (extentAlong (fun v => v.1) m)
    (max (extentAlong (fun v => v.2.1) m) (extentAlong (fun v => v.2.2) m))

/-- `mesh.apply_scale(k)` on a copy: uniform scaling of every vertex. -/
def scaleMesh (k : ℚ) (m : Mesh) : Mesh :=
  ⟨m.vertices.map (vsmul k), m.faces⟩

/-- `GeometryPipeline._normalize_units`: scale the copy by 1000 exactly when
`max_extent` is truthy (nonzero) and below 50; the `max_extent > 100000`
branch in the source sets `scale = 1.0` and is therefore a no-op. -/
def normalize_units (m : Mesh) : Mesh :=
  let e := maxExtent m
  if e ≠ 0 ∧ e < 50 then scaleMesh 1000 m else m

/-- Fixed triangulation of a box used for synthesized geometry
(`trimesh.creation.box` produces an 8-vertex, 12-triangle box). -/
def boxFaces : List Face :=
  [(0, 1, 2), (0, 2, 3), (4, 6, 5), (4, 7, 6),
   (0, 4, 5), (0, 5, 1), (3, 2, 6), (3, 6, 7),
   (1, 5, 6), (1, 6, 2), (0, 3, 7), (0, 7, 4)]

/-- Axis-aligned box mesh centered at the origin with the given extents. -/
def boxMesh (ex ey ez : ℚ) : Mesh :=
  let hx := ex / 2
  let hy := ey / 2
  let hz := ez / 2
  ⟨[(-hx, -hy, -hz), (hx, -hy, -hz), (hx, hy, -hz), (-hx, hy, -hz),
    (-hx, -hy, hz), (hx, -hy, hz), (hx, hy, hz), (-hx, hy, hz)],
   boxFaces⟩

/-- Optional center-of-mass record: models the Python `Dict[str, float]`
(possibly `None` or missing keys) observed only through
`(center_of_mass or `empty`).get(key, fallback)`. -/
structure COM where
  cx : Option ℚ
  cy : Option ℚ
  cz : Option ℚ
deriving DecidableEq

/-- The fields of `processor.PiecePlan` that the geometry core consumes
(identifier, mass, optional center of mass, cut angle in degrees). -/
structure PiecePlan where
  piece_id : String
  mass_kg : ℚ
  center_of_mass : COM
  optimal_cut_angle : ℚ
deriving DecidableEq

/-- Height formula of `GeometryPipeline._synthetic_box`:
`max(200.0, min(2500.0, (piece.mass_kg or 400.0) * 4))`.  Python's `or`
substitutes the default 400 whenever `mass_kg` is falsy, i.e. zero. -/
def boxHeight (mass_kg : ℚ) : ℚ :=
  max 200 (min 2500 ((if mass_kg = 0 then 400 else mass_kg) * 4))

/-- `GeometryPipeline._synthetic_box`: a 600 x height x 600 box. -/
def synthetic_box (p : PiecePlan) : Mesh :=
  boxMesh 600 (boxHeight p.mass_kg) 600

/-- `GeometryPipeline._fallback_center`:
`(index * 650.0 - 1500.0, 500.0 + index * 50.0, index * 120.0)`. -/
def fallback_center (index : ℕ) : Vec3 :=
  ((index : ℚ) * 650 - 1500, 500 + (index : ℚ) * 50, (index : ℚ) * 120)

/-- Action on a point of `transformations.euler_matrix(0.0, θ, 0.0, "sxyz")`,
a pure yaw about the Y axis; `c` and `s` stand for `cos θ` and `sin θ`
(θ = the cut angle converted to radians). -/
def yawRotate (c s : ℚ) (v : Vec3) : Vec3 :=
  (c * v.1 + s * v.2.2, v.2.1, -s * v.1 + c * v.2.2)

/-- Translation chosen by `GeometryPipeline.apply_plan_transform`:
per component, the declared center-of-mass entry when the key is present,
otherwise the index-derived fallback component. -/
def planTranslation (p : PiecePlan) (idx : ℕ) : Vec3 :=
  let fb := fallback_center idx
  (p.center_of_mass.cx.getD fb.1,
   p.center_of_mass.cy.getD fb.2.1,
   p.center_of_mass.cz.getD fb.2.2)

/-- `GeometryPipeline.apply_plan_transform` on a copy of the mesh: every
vertex is rotated by the yaw of the cut angle and then translated; faces are
untouched. -/
def apply_plan_transform (c s : ℚ) (m : Mesh) (p : PiecePlan) (idx : ℕ) : Mesh :=
  ⟨m.vertices.map (fun v => vadd (yawRotate c s v) (planTranslation p idx)),
   m.faces⟩

/-- Rotation applied by `obj_exporter._piece_vertices`:
`rx = x * cos_a - z * sin_a; rz = x * sin_a + z * cos_a`. -/
def objRotate (c s : ℚ) (v : Vec3) : Vec3 :=
  (v.1 * c - v.2.2 * s, v.2.1, v.1 * s + v.2.2 * c)

/-- Height formula of `obj_exporter._piece_vertices`:
`max(0.25, min(2.5, piece.mass_kg / 120 if piece.mass_kg else 0.4))`. -/
def objHeight (mass_kg : ℚ) : ℚ :=
  max (1/4) (min (5/2) (if mass_kg = 0 then 2/5 else mass_kg / 120))

/-- `obj_exporter._normalize_center`: declared components when present, else
the exporter's own fallback row formula (in meters). -/
def objNormalizeCenter (com : COM) (idx : ℕ) : Vec3 :=
  (com.cx.getD ((idx : ℚ) * (65/100) - 2),
   com.cy.getD (3/5 + (idx : ℚ) * (5/100)),
   com.cz.getD 0)

/-- The local (pre-rotation) corners of the exporter's proxy box. -/
def objBaseVertices (p : PiecePlan) : List Vec3 :=
  let hw : ℚ := 3/10
  let hd : ℚ := 3/10
  let hh := objHeight p.mass_kg / 2
  [(-hw, -hh, -hd), (hw, -hh, -hd), (hw, hh, -hd), (-hw, hh, -hd),
   (-hw, -hh, hd), (hw, -hh, hd), (hw, hh, hd), (-hw, hh, hd)]

/-- `obj_exporter._piece_vertices`: each proxy-box corner is rotated about the
vertical axis and then offset by the normalized center. -/
def piece_vertices (c s : ℚ) (p : PiecePlan) (idx : ℕ) : List Vec3 :=
  (objBaseVertices p).map
    (fun v => vadd (objRotate c s v) (objNormalizeCenter p.center_of_mass idx))

/-- `GeometryPipeline._sanitize_piece_id`: spaces to hyphens, lowercased. -/
def sanitize_piece_id (s : String) : String :=
  (s.replace " " "-").toLower

/-- Concrete zero-extent mesh: a single vertex. -/
def meshC8 : Mesh := ⟨[(1, 1, 1)], []⟩

/-- Concrete mesh with extent 10 for the C8 witness. -/
def meshC8w : Mesh := ⟨[(0, 0, 0), (10, 0, 0)], [(0, 0, 1)]⟩

/-- Concrete plan for the C7 witness: full center of mass and 90 degree cut. -/
def pieceC7 : PiecePlan := ⟨"beam 1", 100, ⟨some 10, some 20, some 30⟩, 90⟩

/-! ### Half-space clipping (`GeometryPipeline._keep_halfspace` / `_clip_face`) -/

/-- Unordered edge key: `tuple(sorted((current_index, next_index)))`. -/
def sortPair (a b : ℕ) : ℕ × ℕ := if a ≤ b then (a, b) else (b, a)

/-- Lookup in the edge-vertex cache (a Python dict keyed by vertex pairs). -/
def cacheLookup : List ((ℕ × ℕ) × ℕ) → ℕ × ℕ → Option ℕ
  | [], _ => none
  | (k, i) :: rest, key => if key = k then some i else cacheLookup rest key

/-- Mutable state threaded through one clip operation: the edge-vertex cache
and the growing `new_vertices` list (which starts as the original vertices). -/
structure ClipState where
  cache : List ((ℕ × ℕ) × ℕ)
  verts : List Vec3
deriving DecidableEq

/-- Interpolated split point of `_clip_face`:
`t = 0 if denom == 0 else current_dist / denom`;
`point = vertices[current] + direction * t`. -/
def interp (verts : List Vec3) (cur nxt : ℕ) (dcur dnxt : ℚ) : Vec3 :=
  let dir := vsub (verts.getD nxt zeroV) (verts.getD cur zeroV)
  let denom := dcur - dnxt
  let t := if denom = 0 then 0 else dcur / denom
  vadd (verts.getD cur zeroV) (vsmul t dir)

/-- The crossing test of `_clip_face`:
`(current_dist >= -tol and next_dist < -tol) or
 (current_dist < -tol and next_dist >= -tol)`. -/
abbrev crossesEdge (tol dcur dnxt : ℚ) : Prop :=
  (-tol ≤ dcur ∧ dnxt < -tol) ∨ (dcur < -tol ∧ -tol ≤ dnxt)

/-- One iteration of the edge walk in `_clip_face`: emit the current vertex
when retained, then emit (creating if necessary) the cached split vertex when
the edge crosses the plane. -/
def stepEdge (verts : List Vec3) (tol : ℚ) (cur nxt : ℕ) (dcur dnxt : ℚ)
    (acc : List ℕ × ClipState) : List ℕ × ClipState :=
  let keep : List ℕ := if -tol ≤ dcur then [cur] else []
  if crossesEdge tol dcur dnxt then
    match cacheLookup acc.2.cache (sortPair cur nxt) with
    | some i => (acc.1 ++ keep ++ [i], acc.2)
    | none =>
        (acc.1 ++ keep ++ [acc.2.verts.length],
         ⟨(sortPair cur nxt, acc.2.verts.length) :: acc.2.cache,
          acc.2.verts ++ [interp verts cur nxt dcur dnxt]⟩)
  else (acc.1 ++ keep, acc.2)

/-- `GeometryPipeline._clip_face`: walk the triangle's three edges in order
(with wraparound), producing the clipped polygon and the updated state. -/
def clipFace (verts : List Vec3) (tol : ℚ) (f : Face) (d0 d1 d2 : ℚ)
    (st : ClipState) : List ℕ × ClipState :=
  stepEdge verts tol f.2.2 f.1 d2 d0
    (stepEdge verts tol f.2.1 f.2.2 d1 d2
      (stepEdge verts tol f.1 f.2.1 d0 d1 ([], st)))

/-- Fixed-anchor fan triangulation of a clipped polygon
(`[anchor, clipped[i], clipped[i+1]]` for `i = 1 .. len - 2`). -/
def fanFrom (a : ℕ) : List ℕ → List Face
  | b :: c :: rest => (a, b, c) :: fanFrom a (c :: rest)
  | _ => []

def fanTri : List ℕ → List Face
  | [] => []
  | a :: rest => fanFrom a rest

/-- Signed distance of vertex `i` to the plane:
`distances = (vertices - plane_origin).dot(plane_normal)`. -/
def dOf (verts : List Vec3) (o n : Vec3) (i : ℕ) : ℚ :=
  vdot (vsub (verts.getD i zeroV) o) n

/-- Per-face body of the loop in `_keep_halfspace`: keep a face whose three
distances are all at least `-tol`, drop a face whose three distances are all
below `-tol`, otherwise clip it and fan-triangulate the result when it has at
least three vertices. -/
def clipStep (verts : List Vec3) (o n : Vec3) (tol : ℚ)
    (acc : List Face × ClipState) (f : Face) : List Face × ClipState :=
  let d0 := dOf verts o n f.1
  let d1 := dOf verts o n f.2.1
  let d2 := dOf verts o n f.2.2
  if -tol ≤ d0 ∧ -tol ≤ d1 ∧ -tol ≤ d2 then (acc.1 ++ [f], acc.2)
  else if d0 < -tol ∧ d1 < -tol ∧ d2 < -tol then acc
  else
    let r := clipFace verts tol f d0 d1 d2 acc.2
    if 3 ≤ r.1.length then (acc.1 ++ fanTri r.1, r.2) else (acc.1, r.2)

/-! ### Post-construction cleanup performed by the pipeline

The clipped vertex/face lists are rebuilt through
`trimesh.Trimesh(..., process=True)` (which merges exactly coincident
vertices), then `remove_unreferenced_vertices()` and `fill_holes()`.  These
are `trimesh` library routines, not code under `src/`; they are modelled from
the spec (section 4.2 step 6: unreferenced vertices are pruned and small holes
are filled) with `trimesh`'s documented behavior: vertex merging keeps the
first occurrence of each coordinate, and hole filling adds one triangle over
each boundary cycle of length three. -/

/-- Remove every occurrence of `v` from the list. -/
def removeEq (v : Vec3) : List Vec3 → List Vec3
  | [] => []
  | u :: rest => if u = v then removeEq v rest else u :: removeEq v rest

theorem removeEq_length_le (v : Vec3) (l : List Vec3) :
    (removeEq v l).length ≤ l.length := by
  induction l with
  | nil => simp [removeEq]
  | cons u rest ih =>
      simp only [removeEq, List.length_cons]
      split
      · exact Nat.le_succ_of_le ih
      · simpa using Nat.succ_le_succ ih

/-- First-occurrence deduplication of the vertex list. -/
def firstDedup : List Vec3 → List Vec3
  | [] => []
  | v :: rest => v :: firstDedup (removeEq v rest)
termination_by l => l.length
decreasing_by
  simp only [List.length_cons]
  exact Nat.lt_succ_of_le (removeEq_length_le _ _)

/-- Index of the first occurrence of `v` (list length when absent). -/
def idxOf (v : Vec3) : List Vec3 → ℕ
  | [] => 0
  | u :: rest => if u = v then 0 else idxOf v rest + 1

/-- Modelled from the spec: vertex merging done by
`trimesh.Trimesh(..., process=True)` — exactly coincident vertices are merged
to the first occurrence and faces are re-indexed accordingly. -/
def mergeVertices (m : Mesh) : Mesh :=
  let vs := firstDedup m.vertices
  ⟨vs, m.faces.map (fun f =>
    (idxOf (m.vertices.getD f.1 zeroV) vs,
     idxOf (m.vertices.getD f.2.1 zeroV) vs,
     idxOf (m.vertices.getD f.2.2 zeroV) vs))⟩

/-- Does some face reference vertex index `i`? -/
def referencedB (i : ℕ) : List Face → Bool
  | [] => false
  | f :: rest => if f.1 = i ∨ f.2.1 = i ∨ f.2.2 = i then true else referencedB i rest

/-- Indices of a list of candidates that are referenced by the faces. -/
def keepRefd (faces : List Face) : List ℕ → List ℕ
  | [] => []
  | i :: rest =>
      if referencedB i faces then i :: keepRefd faces rest else keepRefd faces rest

/-- Position of `i` in the kept-index list (list length when absent). -/
def idxIn (i : ℕ) : List ℕ → ℕ
  | [] => 0
  | j :: rest => if j = i then 0 else idxIn i rest + 1

/-- `trimesh.Trimesh.remove_unreferenced_vertices`: drop vertices referenced
by no face and re-index the faces over the surviving vertices, preserving
order. -/
def remove_unreferenced_vertices (m : Mesh) : Mesh :=
  let keep := keepRefd m.faces (List.range m.vertices.length)
  ⟨keep.map (fun i => m.vertices.getD i zeroV),
   m.faces.map (fun f => (idxIn f.1 keep, idxIn f.2.1 keep, idxIn f.2.2 keep))⟩

/-- The three undirected (sorted) edges of a face. -/
def undirEdges (f : Face) : List (ℕ × ℕ) :=
  [sortPair f.1 f.2.1, sortPair f.2.1 f.2.2, sortPair f.2.2 f.1]

/-- All undirected edges of a face list, with multiplicity. -/
def allEdges : List Face → List (ℕ × ℕ)
  | [] => []
  | f :: rest => undirEdges f ++ allEdges rest

/-- Occurrences of an undirected edge among the faces. -/
def countE (e : ℕ × ℕ) : List (ℕ × ℕ) → ℕ
  | [] => 0
  | e' :: rest => if e' = e then countE e rest + 1 else countE e rest

/-- Number of faces incident to the undirected edge `e`. -/
def edgeCount (faces : List Face) (e : ℕ × ℕ) : ℕ := countE e (allEdges faces)

/-- A boundary edge is shared by exactly one face. -/
def isBoundary (faces : List Face) (e : ℕ × ℕ) : Bool := edgeCount faces e = 1

/-- Triangles `(a, b, c)` closing a boundary 3-cycle through the fixed edge
`(a, b)`: scan the candidate third vertices `c`. -/
def candsFor (faces : List Face) (a b : ℕ) : List ℕ → List Face
  | [] => []
  | c :: cs =>
      if b < c ∧ isBoundary faces (b, c) ∧ isBoundary faces (a, c) then
        (a, b, c) :: candsFor faces a b cs
      else candsFor faces a b cs

/-- All boundary 3-cycles, each discovered once through its least edge. -/
def holesFrom (faces : List Face) (n : ℕ) : List (ℕ × ℕ) → List Face
  | [] => []
  | (a, b) :: rest =>
      (if a < b then candsFor faces a b (List.range n) else [])
        ++ holesFrom faces n rest

/-- The triangles added by hole filling: one per boundary cycle of length
three (each undirected triple `a < b < c` all of whose edges are boundary
edges of the mesh). -/
def holeTriangles (m : Mesh) : List Face :=
  holesFrom m.faces m.vertices.length
    ((allEdges m.faces).filter (fun e => isBoundary m.faces e))

/-- Modelled from the spec: `trimesh.Trimesh.fill_holes` (library code not
under `src/`) — remaining small boundary holes are filled; modelled as adding
one triangle over each boundary 3-cycle. -/
def fill_holes (m : Mesh) : Mesh := ⟨m.vertices, m.faces ++ holeTriangles m⟩

/-- `GeometryPipeline._keep_halfspace`: classify and clip every face against
the plane, then either fall back to the original mesh when no face survives,
or rebuild, merge coincident vertices, prune unreferenced vertices and fill
small holes. -/
def keep_halfspace (m : Mesh) (o n : Vec3) (tol : ℚ) : Mesh :=
  let r := m.faces.foldl (clipStep m.vertices o n tol) ([], ⟨[], m.vertices⟩)
  if r.1 = [] then m
  else fill_holes (remove_unreferenced_vertices (mergeVertices ⟨r.2.verts, r.1⟩))

/-! ### Watertight repair (`GeometryPipeline.remesh_watertight`) -/

/-- Order-insensitive key of a face (`np.sort(faces, axis=1)` row). -/
def faceKey (f : Face) : ℕ × ℕ × ℕ :=
  let a := min f.1 (min f.2.1 f.2.2)
  let c := max f.1 (max f.2.1 f.2.2)
  (a, f.1 + f.2.1 + f.2.2 - a - c, c)

/-- Keep the first face with each sorted-vertex key. -/
def dedupFacesBy : List Face → List (ℕ × ℕ × ℕ) → List Face
  | [], _ => []
  | f :: rest, seen =>
      if faceKey f ∈ seen then dedupFacesBy rest seen
      else f :: dedupFacesBy rest (faceKey f :: seen)

/-- `trimesh.Trimesh.remove_duplicate_faces`: drop faces that repeat an
earlier face up to vertex order. -/
def remove_duplicate_faces (m : Mesh) : Mesh :=
  ⟨m.vertices, dedupFacesBy m.faces []⟩

/-- A face is degenerate when its two edge vectors are parallel (zero area),
in particular when it repeats a vertex index. -/
def degenerateB (verts : List Vec3) (f : Face) : Bool :=
  vcross (vsub (verts.getD f.2.1 zeroV) (verts.getD f.1 zeroV))
      (vsub (verts.getD f.2.2 zeroV) (verts.getD f.1 zeroV)) = zeroV

/-- `trimesh.Trimesh.remove_degenerate_faces`: keep only faces with nonzero
area. -/
def remove_degenerate_faces (m : Mesh) : Mesh :=
  ⟨m.vertices, m.faces.filter (fun f => ¬ degenerateB m.vertices f)⟩

/-- Watertightness per the spec's glossary: every edge of the mesh is shared
by exactly two faces (`trimesh.Trimesh.is_watertight`, library code not under
`src/`, modelled from the spec). -/
def is_watertight (m : Mesh) : Bool :=
  (allEdges m.faces).all (fun e => edgeCount m.faces e = 2)

/-- Per-axis bounds of the vertex list (`0` for an empty mesh). -/
def boundsAlong (sel : Vec3 → ℚ) (m : Mesh) : ℚ × ℚ :=
  match m.vertices with
  | [] => (0, 0)
  | v :: vs =>
      (vs.foldl (fun a u => min a (sel u)) (sel v),
       vs.foldl (fun a u => max a (sel u)) (sel v))

/-- Modelled from the spec: `trimesh.Trimesh.convex_hull` (library code not
under `src/`) — the fallback substitutes a watertight convex solid enclosing
all vertices; modelled as the closed axis-aligned bounding box of the
vertices, a convex watertight enclosure (the spec only relies on the fallback
being a valid watertight solid, not on hull minimality). -/
def convex_hull (m : Mesh) : Mesh :=
  let bx := boundsAlong (fun v => v.1) m
  let by' := boundsAlong (fun v => v.2.1) m
  let bz := boundsAlong (fun v => v.2.2) m
  ⟨[(bx.1, by'.1, bz.1), (bx.2, by'.1, bz.1), (bx.2, by'.2, bz.1), (bx.1, by'.2, bz.1),
    (bx.1, by'.1, bz.2), (bx.2, by'.1, bz.2), (bx.2, by'.2, bz.2), (bx.1, by'.2, bz.2)],
   boxFaces⟩

/-- `GeometryPipeline.remesh_watertight`: cleanup chain on a copy, then the
unconditional convex-hull fallback whenever the cleaned mesh is still not
watertight. -/
def remesh_watertight (m : Mesh) : Mesh :=
  let m4 := remove_unreferenced_vertices
    (fill_holes (remove_degenerate_faces (remove_duplicate_faces m)))
  if is_watertight m4 then m4 else convex_hull m4

/-! ### Piece geometry assembly (`GeometryPipeline.build_piece_meshes`)

The assembler's inputs from the filesystem are modelled as records carrying
the data the pipeline observes: whether the path exists, its extension, and
the mesh `trimesh.load` would produce for it.  The cosine/sine pair of the
cut angle (`math.cos`/`math.sin` of `math.radians(angle)`) and the mesh
centroid (`trimesh`'s area-weighted centroid, an irrational quantity) are
taken as explicit function parameters `trig` and `centroid`; no claim under
examination depends on their values. -/

/-- A candidate scan file: existence flag, filename suffix, loaded mesh. -/
structure ScanFile where
  present : Bool
  suffix : String
  mesh : Mesh
deriving DecidableEq

/-- `GeometryPipeline.SUPPORTED_EXTS` membership test on the lowercased
suffix. -/
def supportedExt (s : String) : Bool :=
  s.toLower = ".obj" ∨ s.toLower = ".stl" ∨ s.toLower = ".ply" ∨
    s.toLower = ".fbx"

/-- `GeometryPipeline.load_mesh`: load (already merged into one mesh in the
model) and normalize units. -/
def load_mesh (sf : ScanFile) : Mesh := normalize_units sf.mesh

/-- `GeometryPipeline.slice_with_kuka`: clip against the plane through the
centroid with normal `(cos θ, 0, sin θ)` (a unit vector, so the source's
division by its norm is the identity), tolerance `1e-6`. -/
def slice_with_kuka (trig : ℚ → ℚ × ℚ) (centroid : Mesh → Vec3) (m : Mesh)
    (angle_deg : ℚ) : Mesh :=
  let cs := trig angle_deg
  keep_halfspace m (centroid m) (cs.1, 0, cs.2) (1 / 1000000)

/-- The per-piece mesh stages run by the assembler:
clip, then plan transform, then watertight repair. -/
def processPiece (trig : ℚ → ℚ × ℚ) (centroid : Mesh → Vec3) (p : PiecePlan)
    (idx : ℕ) (m0 : Mesh) : Mesh :=
  remesh_watertight
    (apply_plan_transform (trig p.optimal_cut_angle).1
      (trig p.optimal_cut_angle).2
      (slice_with_kuka trig centroid m0 p.optimal_cut_angle) p idx)

/-- One fully processed piece (`PieceGeometry` dataclass: identifier, mesh,
source path, metadata map with cut angle and mass). -/
structure PieceGeometry where
  piece_id : String
  mesh : Mesh
  source_path : Option ScanFile
  cut_angle : ℚ
  mass_kg : ℚ
deriving DecidableEq

/-- Scan selection for index `idx` against the existence-filtered cycle list:
the candidate at `idx mod len` is used only when its extension is
supported. -/
def buildSource (scanCycle : List ScanFile) (idx : ℕ) : Option ScanFile :=
  match scanCycle with
  | [] => none
  | _ :: _ =>
      let cand := scanCycle.getD (idx % scanCycle.length) ⟨false, "", ⟨[], []⟩⟩
      if supportedExt cand.suffix then some cand else none

/-- The source file the assembler assigns to plan index `idx`: the cycle list
keeps every existing path (`if path and path.exists()`); the extension is
tested only after cycling. -/
def scanChoice (scans : List ScanFile) (idx : ℕ) : Option ScanFile :=
  buildSource (scans.filter (fun s => s.present)) idx

/-- Modelled from the spec (claim C9's wording, for comparison with the
code's `scanChoice`): cycle through the existing, extension-supported scan
files, taking position `idx mod` their count. -/
def specScanChoice (scans : List ScanFile) (idx : ℕ) : Option ScanFile :=
  match scans.filter (fun s => s.present && supportedExt s.suffix) with
  | [] => none
  | c :: cs => some ((c :: cs).getD (idx % (c :: cs).length) ⟨false, "", ⟨[], []⟩⟩)

/-- Loop body of `build_piece_meshes` over the enumerated plans. -/
def buildGo (trig : ℚ → ℚ × ℚ) (centroid : Mesh → Vec3)
    (scanCycle : List ScanFile) : ℕ → List PiecePlan → List PieceGeometry
  | _, [] => []
  | idx, p :: rest =>
      let pid := sanitize_piece_id
        (if p.piece_id = "" then "piece-" ++ toString (idx + 1) else p.piece_id)
      let src := buildSource scanCycle idx
      let m0 := match src with
        | some sf => load_mesh sf
        | none => synthetic_box p
      ⟨pid, processPiece trig centroid p idx m0, src,
        p.optimal_cut_angle, p.mass_kg⟩ ::
        buildGo trig centroid scanCycle (idx + 1) rest

/-- `GeometryPipeline.build_piece_meshes`: filter the scan paths to the
existing ones, then process every plan in order. -/
def build_piece_meshes (trig : ℚ → ℚ × ℚ) (centroid : Mesh → Vec3)
    (plans : List PiecePlan) (scans : List ScanFile) : List PieceGeometry :=
  buildGo trig centroid (scans.filter (fun s => s.present)) 0 plans

/-- Trivial trig parameter (angle 0 pair) for concrete instances. -/
def trigZero : ℚ → ℚ × ℚ := fun _ => (1, 0)

/-- Trivial centroid parameter for concrete instances. -/
def centZero : Mesh → Vec3 := fun _ => zeroV

/-- A well-spread triangle used as the loaded mesh of concrete scan files. -/
def meshTri : Mesh := ⟨[(0, 0, 0), (60, 0, 0), (0, 60, 0)], [(0, 1, 2)]⟩

def scanA : ScanFile := ⟨true, ".obj", meshTri⟩

def scanB : ScanFile := ⟨true, ".xyz", meshTri⟩

def scanC : ScanFile := ⟨true, ".stl", meshTri⟩

/-- A blank plan (no declared center of mass, zero angle). -/
def pBlank : PiecePlan := ⟨"p", 1, ⟨none, none, none⟩, 0⟩

/-- The identifiers the assembler produces, in order: the sanitized plan
identifier, with the ordinal default `piece-(i+1)` for empty identifiers. -/
def expectedIds (idx : ℕ) : List PiecePlan → List String
  | [] => []
  | p :: rest =>
      sanitize_piece_id
        (if p.piece_id = "" then "piece-" ++ toString (idx + 1) else p.piece_id)
        :: expectedIds (idx + 1) rest

/-- Invariant of the clip state: every cached split index points into the
current vertex list. -/
def ClipInv (st : ClipState) : Prop :=
  ∀ k i, cacheLookup st.cache k = some i → i < st.verts.length

/-- The key `k` crosses the plane along one of the three edges of face `f`
whose vertex distances are `d0, d1, d2`. -/
def crossedKey (f : Face) (d0 d1 d2 tol : ℚ) (k : ℕ × ℕ) : Prop :=
  (crossesEdge tol d0 d1 ∧ k = sortPair f.1 f.2.1) ∨
  (crossesEdge tol d1 d2 ∧ k = sortPair f.2.1 f.2.2) ∨
  (crossesEdge tol d2 d0 ∧ k = sortPair f.2.2 f.1)

/-- Vertices for the C2 witness: two triangles sharing the crossed edge
between vertex 0 (distance 1) and vertex 1 (distance -1). -/
def vertsC2 : List Vec3 := [(1, 0, 0), (-1, 0, 0), (1, 1, 0), (-1, 1, 0)]

/-- The data-model invariant on meshes (spec section 3): every face references
three in-bounds vertex indices. -/
def validFaces (m : Mesh) : Prop :=
  ∀ f ∈ m.faces, f.1 < m.vertices.length ∧ f.2.1 < m.vertices.length ∧
    f.2.2 < m.vertices.length

/-- A face component. -/
def isComp (f : Face) (x : ℕ) : Prop := f.1 = x ∨ f.2.1 = x ∨ f.2.2 = x

/-- A vertex index on the retained side: in bounds with signed distance at
least `-tol`. -/
def IdxGood (V : List Vec3) (o n : Vec3) (tol : ℚ) (i : ℕ) : Prop :=
  i < V.length ∧ -tol ≤ dOf V o n i

/-- All three corners of the face are retained-side in-bounds indices. -/
def FaceGood (V : List Vec3) (o n : Vec3) (tol : ℚ) (f : Face) : Prop :=
  IdxGood V o n tol f.1 ∧ IdxGood V o n tol f.2.1 ∧ IdxGood V o n tol f.2.2

/-- Clip-state invariant: the vertex list extends the original vertices and
every cached split index is a retained-side index. -/
def StGood (verts : List Vec3) (o n : Vec3) (tol : ℚ) (st : ClipState) : Prop :=
  (∃ ext, st.verts = verts ++ ext) ∧
  ∀ k i, cacheLookup st.cache k = some i → IdxGood st.verts o n tol i

/-- The triangle used for the C4 negative-tolerance counterexample: vertex
distances to the plane through the origin with normal `(1, 0, 0)` are
5, -5 and 5. -/
def meshC4 : Mesh := ⟨[(5, 0, 0), (-5, 0, 0), (5, 1, 0)], [(0, 1, 2)]⟩

/-! ### Theorems -/

/-- The modelled convex-hull fallback is watertight for every input: its face
list is the fixed closed box triangulation, in which every undirected edge is
shared by exactly two triangles. -/
theorem is_watertight_convex_hull (m : Mesh) :
    is_watertight (convex_hull m) = true := by
  with_unfolding_all rfl

/-- Claim C1: the Watertight Repairer terminates on every input mesh and
returns a watertight mesh; whenever the cleanup chain (duplicate and
degenerate face removal, hole filling, unreferenced-vertex pruning) leaves
the mesh non-watertight, the unconditional convex-hull fallback is watertight
by construction. -/
theorem C1_remesh_watertight_watertight (m : Mesh) :
    is_watertight (remesh_watertight m) = true := by
  simp only [remesh_watertight]
  split
  · assumption
  · exact is_watertight_convex_hull _

set_option maxHeartbeats 4000000 in
/-- Full evaluation of clipping the triangulated unit cube (vertices at one
half on each axis) with plane origin at the cube center and normal
`(1, 0, 0)`, tolerance `1e-6`: the result keeps the four `x = 1/2` corners,
adds four axis-edge split points and four diagonal split points on the
`x = 0` plane (12 vertices), and carries the two kept `+x` triangles plus
three fan triangles per side face (14 faces); the `x = 0` octagonal hole has
more than three boundary edges, so hole filling adds nothing. -/
theorem cube_clip_eval :
    keep_halfspace (boxMesh 1 1 1) (0, 0, 0) (1, 0, 0) (1 / 1000000) =
      ⟨[(1/2, -(1/2), -(1/2)), (1/2, 1/2, -(1/2)), (1/2, -(1/2), 1/2),
        (1/2, 1/2, 1/2), (0, -(1/2), -(1/2)), (0, 0, -(1/2)),
        (0, 1/2, -(1/2)), (0, 0, 1/2), (0, -(1/2), 1/2), (0, 1/2, 1/2),
        (0, -(1/2), 0), (0, 1/2, 0)],
       [(4, 0, 1), (4, 1, 5), (5, 1, 6), (7, 3, 2), (7, 2, 8), (9, 3, 7),
        (8, 2, 10), (10, 2, 0), (10, 0, 4), (6, 1, 3), (6, 3, 11), (11, 3, 9),
        (0, 2, 3), (0, 3, 1)]⟩ := by
  norm_num [keep_halfspace, clipStep, clipFace, stepEdge, crossesEdge, fanTri,
    fanFrom, dOf,
    vdot, vsub, vadd, vsmul, interp, sortPair, cacheLookup, boxMesh, boxFaces,
    zeroV, List.foldl, List.getD, List.get?, mergeVertices, firstDedup,
    removeEq, idxOf, remove_unreferenced_vertices, keepRefd, referencedB,
    idxIn, fill_holes, holeTriangles, holesFrom, candsFor, isBoundary,
    edgeCount, countE, allEdges, undirEdges, List.range, List.range.loop,
    List.cons_ne_nil]

/-- Claim C5, counterexample: clipping the triangulated unit cube with the
center plane and normal `(1, 0, 0)` yields 14 triangular faces and 12
vertices, not the claimed 6 faces with 8 vertices. -/
theorem C5_unit_cube_clip_counterexample :
    (keep_halfspace (boxMesh 1 1 1) (0, 0, 0) (1, 0, 0) (1 / 1000000)).faces.length = 14 ∧
    (keep_halfspace (boxMesh 1 1 1) (0, 0, 0) (1, 0, 0) (1 / 1000000)).vertices.length = 12 ∧
    ¬((keep_halfspace (boxMesh 1 1 1) (0, 0, 0) (1, 0, 0) (1 / 1000000)).faces.length = 6 ∧
      (keep_halfspace (boxMesh 1 1 1) (0, 0, 0) (1, 0, 0) (1 / 1000000)).vertices.length = 8) := by
  rw [cube_clip_eval]
  norm_num

/-- Claim C5 (amended): clipping the triangulated unit cube (8 vertices, 12
triangles) with plane origin at the center and normal `(1, 0, 0)` yields the
retained half as a mesh with exactly 14 triangular faces and 12 vertices (the
4 retained cube corners, 4 axis-edge split points and 4 diagonal split
points, each crossed edge split exactly once), every vertex on the retained
side `x ≥ 0` and the retained corner `(1/2, 1/2, 1/2)` kept exactly; the
claimed 6-face, 8-vertex figure describes the ideal quad box, not the code's
triangulated output. -/
theorem C5_unit_cube_clip_amended :
    (keep_halfspace (boxMesh 1 1 1) (0, 0, 0) (1, 0, 0) (1 / 1000000)).faces.length = 14 ∧
    (keep_halfspace (boxMesh 1 1 1) (0, 0, 0) (1, 0, 0) (1 / 1000000)).vertices.length = 12 ∧
    (∀ v ∈ (keep_halfspace (boxMesh 1 1 1) (0, 0, 0) (1, 0, 0) (1 / 1000000)).vertices,
      (0 : ℚ) ≤ v.1) ∧
    ((1/2 : ℚ), (1/2 : ℚ), (1/2 : ℚ)) ∈
      (keep_halfspace (boxMesh 1 1 1) (0, 0, 0) (1, 0, 0) (1 / 1000000)).vertices := by
  rw [cube_clip_eval]
  refine ⟨by norm_num, by norm_num, ?_, by norm_num⟩
  intro v hv
  simp only [List.mem_cons, List.not_mem_nil, or_false] at hv
  rcases hv with h | h | h | h | h | h | h | h | h | h | h | h <;>
    subst h <;> norm_num

/-- The per-face loop is the identity on faces lying entirely on the discard
side. -/
theorem foldl_clipStep_discard (verts : List Vec3) (o n : Vec3) (tol : ℚ) :
    ∀ (fs : List Face) (acc : List Face × ClipState),
    (∀ f ∈ fs, dOf verts o n f.1 < -tol ∧ dOf verts o n f.2.1 < -tol ∧
      dOf verts o n f.2.2 < -tol) →
    fs.foldl (clipStep verts o n tol) acc = acc := by
  intro fs
  induction fs with
  | nil => intro acc _; rfl
  | cons f rest ih =>
      intro acc hf
      obtain ⟨h0, h1, h2⟩ := hf f (List.mem_cons_self f rest)
      have hstep : clipStep verts o n tol acc f = acc := by
        simp only [clipStep]
        rw [if_neg (fun hc => absurd hc.1 (not_le.mpr h0)), if_pos ⟨h0, h1, h2⟩]
      rw [List.foldl_cons, hstep]
      exact ih acc (fun g hg => hf g (List.mem_cons_of_mem f hg))

/-- Claim C3: when the plane lies entirely outside the mesh on the discard
side — every face has all three vertex distances below `-tol` — the clip
operation returns the original mesh unchanged, with the same vertex and face
counts, rather than an empty mesh. -/
theorem C3_keep_halfspace_all_discarded (m : Mesh) (o n : Vec3) (tol : ℚ)
    (h : ∀ f ∈ m.faces, dOf m.vertices o n f.1 < -tol ∧
      dOf m.vertices o n f.2.1 < -tol ∧ dOf m.vertices o n f.2.2 < -tol) :
    keep_halfspace m o n tol = m ∧
    (keep_halfspace m o n tol).vertices.length = m.vertices.length ∧
    (keep_halfspace m o n tol).faces.length = m.faces.length := by
  have hk : keep_halfspace m o n tol = m := by
    simp only [keep_halfspace,
      foldl_clipStep_discard m.vertices o n tol m.faces ([], ⟨[], m.vertices⟩) h]
    simp
  exact ⟨hk, by rw [hk], by rw [hk]⟩

/-- A triangle entirely on the discard side of the plane through the origin
with normal `(1, 0, 0)`. -/
def meshC3 : Mesh := ⟨[(-5, 0, 0), (-6, 1, 0), (-7, 0, 1)], [(0, 1, 2)]⟩

theorem C3_keep_halfspace_all_discarded_witness :
    keep_halfspace meshC3 (0, 0, 0) (1, 0, 0) (1 / 1000000) = meshC3 :=
  (C3_keep_halfspace_all_discarded meshC3 (0, 0, 0) (1, 0, 0) (1 / 1000000)
    (by
      intro f hf
      simp only [meshC3, List.mem_cons, List.not_mem_nil, or_false] at hf
      subst hf
      norm_num [dOf, vdot, vsub, zeroV, meshC3])).1

/-- Structure of the assembler loop: one output record per plan, in order,
with the scan source of plan `j` chosen by `buildSource` at index `idx + j`
and the metadata copied from the plan. -/
theorem buildGo_spec (trig : ℚ → ℚ × ℚ) (centroid : Mesh → Vec3)
    (cyc : List ScanFile) :
    ∀ (idx : ℕ) (plans : List PiecePlan),
    (buildGo trig centroid cyc idx plans).length = plans.length ∧
    (buildGo trig centroid cyc idx plans).map (fun g => g.source_path)
      = (List.range plans.length).map (fun j => buildSource cyc (idx + j)) ∧
    (buildGo trig centroid cyc idx plans).map (fun g => g.piece_id)
      = expectedIds idx plans ∧
    (buildGo trig centroid cyc idx plans).map (fun g => g.cut_angle)
      = plans.map (fun p => p.optimal_cut_angle) ∧
    (buildGo trig centroid cyc idx plans).map (fun g => g.mass_kg)
      = plans.map (fun p => p.mass_kg) := by
  intro idx plans
  induction plans generalizing idx with
  | nil => simp [buildGo, expectedIds]
  | cons p rest ih =>
      obtain ⟨h1, h2, h3, h4, h5⟩ := ih (idx + 1)
      have hfun : (fun j => buildSource cyc (idx + 1 + j))
          = fun j => buildSource cyc (idx + Nat.succ j) := by
        funext j
        congr 1
        omega
      refine ⟨by simp [buildGo, h1], ?_, by simp [buildGo, expectedIds, h3],
        by simp [buildGo, h4], by simp [buildGo, h5]⟩
      simp only [buildGo, List.map_cons, List.length_cons]
      rw [h2, hfun, List.range_succ_eq_map, List.map_cons, List.map_map]
      simp [Function.comp]

/-- Concrete assembler run: 2 supported scan files, 5 plans, giving the
0,1,0,1,0 cycling pattern. -/
theorem assembler_cycle_example :
    (build_piece_meshes trigZero centZero
        [pBlank, pBlank, pBlank, pBlank, pBlank] [scanA, scanC]).map
        (fun g => g.source_path)
      = [some scanA, some scanC, some scanA, some scanC, some scanA] := by
  with_unfolding_all rfl

/-- What the code does with existing scan files `.obj`, `.xyz` and two plans:
index 1 cycles onto the unsupported `.xyz` file and synthesizes. -/
theorem scan_cycling_code_run :
    (build_piece_meshes trigZero centZero [pBlank, pBlank] [scanA, scanB]).map
        (fun g => g.source_path) = [some scanA, none] := by
  with_unfolding_all rfl

/-- What the claim's selection rule prescribes for the same inputs. -/
theorem scan_cycling_claim_rule :
    (List.range 2).map (specScanChoice [scanA, scanB])
      = [some scanA, some scanA] := by
  with_unfolding_all rfl

/-- Claim C9, counterexample: with two existing scan files of which only the
first has a supported extension, the code cycles over both existing files
(the extension is tested only after selection), so plan index 1 receives no
scan file and falls back to synthesis; the claim's rule — cycle over the
existing, extension-supported files — would assign the supported file to
every plan. -/
theorem C9_scan_cycling_counterexample :
    (build_piece_meshes trigZero centZero [pBlank, pBlank] [scanA, scanB]).map
        (fun g => g.source_path) = [some scanA, none] ∧
    (List.range 2).map (specScanChoice [scanA, scanB])
      = [some scanA, some scanA] ∧
    ([some scanA, none] : List (Option ScanFile)) ≠ [some scanA, some scanA] :=
  ⟨scan_cycling_code_run, scan_cycling_claim_rule, by simp⟩

/-- Claim C9 (amended): the assembler produces exactly one record per plan,
in input order, with metadata copied from the plan; the scan file assigned to
the plan at index `i` is the one at position `i mod (number of existing scan
files)`, and it is used only when its extension is supported (otherwise the
piece is synthesized).  With 2 supported scan files and 5 plans the assigned
files follow the pattern 0,1,0,1,0. -/
theorem C9_build_piece_meshes_amended (trig : ℚ → ℚ × ℚ)
    (centroid : Mesh → Vec3) (plans : List PiecePlan)
    (scans : List ScanFile) :
    (build_piece_meshes trig centroid plans scans).length = plans.length ∧
    (build_piece_meshes trig centroid plans scans).map (fun g => g.source_path)
      = (List.range plans.length).map (scanChoice scans) ∧
    (build_piece_meshes trig centroid plans scans).map (fun g => g.piece_id)
      = expectedIds 0 plans ∧
    (build_piece_meshes trig centroid plans scans).map (fun g => g.cut_angle)
      = plans.map (fun p => p.optimal_cut_angle) ∧
    (build_piece_meshes trig centroid plans scans).map (fun g => g.mass_kg)
      = plans.map (fun p => p.mass_kg) ∧
    (build_piece_meshes trigZero centZero
        [pBlank, pBlank, pBlank, pBlank, pBlank] [scanA, scanC]).map
        (fun g => g.source_path)
      = [some scanA, some scanC, some scanA, some scanC, some scanA] := by
  obtain ⟨h1, h2, h3, h4, h5⟩ :=
    buildGo_spec trig centroid (scans.filter (fun s => s.present)) 0 plans
  have hz : (fun j => buildSource (scans.filter (fun s => s.present)) (0 + j))
      = scanChoice scans := by
    funext j
    simp [scanChoice]
  refine ⟨h1, ?_, h3, h4, h5, assembler_cycle_example⟩
  rw [show build_piece_meshes trig centroid plans scans
      = buildGo trig centroid (scans.filter (fun s => s.present)) 0 plans
      from rfl, h2, hz]

/-- The bounding-box extents of `boxMesh` recover the requested extents. -/
theorem extentAlong_boxMesh (ex ey ez : ℚ) (hx : 0 ≤ ex) (hy : 0 ≤ ey)
    (hz : 0 ≤ ez) :
    extentAlong (fun v => v.1) (boxMesh ex ey ez) = ex ∧
    extentAlong (fun v => v.2.1) (boxMesh ex ey ez) = ey ∧
    extentAlong (fun v => v.2.2) (boxMesh ex ey ez) = ez := by
  have m1 : ∀ a : ℚ, 0 ≤ a → max (-(a / 2)) (a / 2) = a / 2 :=
    fun a ha => max_eq_right (by linarith)
  have m2 : ∀ a : ℚ, 0 ≤ a → max (a / 2) (-(a / 2)) = a / 2 :=
    fun a ha => max_eq_left (by linarith)
  have m3 : ∀ a : ℚ, 0 ≤ a → min (-(a / 2)) (a / 2) = -(a / 2) :=
    fun a ha => min_eq_left (by linarith)
  have m4 : ∀ a : ℚ, 0 ≤ a → min (a / 2) (-(a / 2)) = -(a / 2) :=
    fun a ha => min_eq_right (by linarith)
  refine ⟨?_, ?_, ?_⟩ <;>
    simp only [boxMesh, extentAlong, List.foldl_cons, List.foldl_nil,
      max_self, min_self, m1 _ hx, m2 _ hx, m3 _ hx, m4 _ hx,
      m1 _ hy, m2 _ hy, m3 _ hy, m4 _ hy,
      m1 _ hz, m2 _ hz, m3 _ hz, m4 _ hz] <;>
    ring

/-- Claim C6, counterexample: for a piece of mass 0 kg the synthetic box is
1600 mm tall (the Python `or` replaces a falsy mass with the default 400 kg),
not the claimed clamp value of 200 mm. -/
theorem C6_synthetic_box_mass_zero_counterexample :
    extentAlong (fun v => v.2.1)
        (synthetic_box ⟨"p", 0, ⟨none, none, none⟩, 0⟩) = 1600 ∧
    max 200 (min 2500 ((0 : ℚ) * 4)) = 200 ∧ (1600 : ℚ) ≠ 200 := by
  refine ⟨?_, by norm_num, by norm_num⟩
  have h := extentAlong_boxMesh 600 1600 600 (by norm_num) (by norm_num)
    (by norm_num)
  have hb : boxHeight 0 = 1600 := by norm_num [boxHeight]
  simpa [synthetic_box, hb] using h.2.1

/-- Claim C6 (amended): the synthetic fallback box has fixed width and depth
600 mm, and its height is `clamp(mass * 4, 200, 2500)` for every nonzero mass
(1600 mm at 400 kg, clamped to 2500 mm at 1000 kg); for mass 0 (falsy in
Python) a default mass of 400 kg is substituted, giving height 1600 mm. -/
theorem C6_synthetic_box_amended (p : PiecePlan) :
    extentAlong (fun v => v.1) (synthetic_box p) = 600 ∧
    extentAlong (fun v => v.2.2) (synthetic_box p) = 600 ∧
    extentAlong (fun v => v.2.1) (synthetic_box p) =
      (if p.mass_kg = 0 then 1600 else max 200 (min 2500 (p.mass_kg * 4))) ∧
    boxHeight 400 = 1600 ∧ boxHeight 1000 = 2500 := by
  have h200 : (200 : ℚ) ≤ boxHeight p.mass_kg := le_max_left _ _
  have h := extentAlong_boxMesh 600 (boxHeight p.mass_kg) 600 (by norm_num)
    (by linarith) (by norm_num)
  refine ⟨?_, ?_, ?_, by norm_num [boxHeight], by norm_num [boxHeight]⟩
  · simpa [synthetic_box] using h.1
  · simpa [synthetic_box] using h.2.2
  · rw [show extentAlong (fun v => v.2.1) (synthetic_box p)
        = boxHeight p.mass_kg from h.2.1]
    by_cases hm : p.mass_kg = 0
    · simp [boxHeight, hm]; norm_num
    · simp [boxHeight, hm]

/-- Claim C8, counterexample: a mesh with a single vertex has largest
bounding-box extent 0, which is below the threshold 50, yet the normalizer
leaves it unscaled (Python truthiness of `max_extent` guards the branch),
contradicting the claim that every mesh with extent below 50 is scaled by
1000. -/
theorem C8_normalize_units_zero_extent_counterexample :
    maxExtent meshC8 < 50 ∧ normalize_units meshC8 = meshC8 ∧
    normalize_units meshC8 ≠ scaleMesh 1000 meshC8 := by
  have h0 : maxExtent meshC8 = 0 := by
    norm_num [maxExtent, extentAlong, meshC8]
  refine ⟨by rw [h0]; norm_num, by simp [normalize_units, h0], ?_⟩
  simp only [normalize_units, h0]
  norm_num [scaleMesh, meshC8, vsmul, Mesh.mk.injEq]
  intro h
  have h1 := congrArg Prod.fst h
  norm_num at h1

/-- Claim C8 (amended): the Unit Normalizer returns a new mesh (the input
value is untouched); the result is the input uniformly scaled by 1000 when
the largest bounding-box extent is nonzero and below 50, and is the input at
scale 1 otherwise (in particular for degenerate zero-extent meshes). -/
theorem C8_normalize_units_amended (m : Mesh) :
    (maxExtent m ≠ 0 ∧ maxExtent m < 50 →
      (normalize_units m).vertices = m.vertices.map (vsmul 1000) ∧
      (normalize_units m).faces = m.faces) ∧
    (¬(maxExtent m ≠ 0 ∧ maxExtent m < 50) → normalize_units m = m) := by
  constructor
  · intro h
    simp [normalize_units, scaleMesh, h.1, h.2]
  · intro h
    simp only [normalize_units]
    rw [if_neg h]

theorem C8_normalize_units_amended_witness :
    (normalize_units meshC8w).vertices = meshC8w.vertices.map (vsmul 1000) ∧
    (normalize_units meshC8w).faces = meshC8w.faces :=
  (C8_normalize_units_amended meshC8w).1
    (by constructor <;> norm_num [maxExtent, extentAlong, meshC8w])

/-- Claim C7: the Placement Transformer maps every vertex through the yaw of
the cut angle about Y followed by the plan translation; the translation is the
declared center of mass when fully present and the index-derived fallback
`(idx * 650 - 1500, 500 + idx * 50, idx * 120)` when absent; with the 90
degree pair `(cos, sin) = (0, 1)` the yaw sends `(1, 0, 0)` to `(0, 0, -1)`
(right-hand convention), to which the translation is then added. -/
theorem C7_apply_plan_transform_spec (c s : ℚ) (m : Mesh) (p : PiecePlan)
    (idx : ℕ) :
    (apply_plan_transform c s m p idx).vertices
      = m.vertices.map (fun v => vadd (yawRotate c s v) (planTranslation p idx)) ∧
    (apply_plan_transform c s m p idx).faces = m.faces ∧
    (∀ x y z : ℚ, p.center_of_mass = ⟨some x, some y, some z⟩ →
      planTranslation p idx = (x, y, z)) ∧
    (p.center_of_mass = ⟨none, none, none⟩ →
      planTranslation p idx = fallback_center idx) ∧
    fallback_center idx
      = ((idx : ℚ) * 650 - 1500, 500 + (idx : ℚ) * 50, (idx : ℚ) * 120) ∧
    yawRotate 0 1 (1, 0, 0) = (0, 0, -1) := by
  refine ⟨rfl, rfl, ?_, ?_, rfl, by norm_num [yawRotate]⟩
  · intro x y z h
    simp [planTranslation, h]
  · intro h
    simp [planTranslation, h, fallback_center]

theorem C7_apply_plan_transform_spec_witness :
    planTranslation pieceC7 0 = (10, 20, 30) ∧
    yawRotate 0 1 (1, 0, 0) = (0, 0, -1) :=
  ⟨(C7_apply_plan_transform_spec 0 1 ⟨[], []⟩ pieceC7 0).2.2.1 10 20 30 rfl,
   (C7_apply_plan_transform_spec 0 1 ⟨[], []⟩ pieceC7 0).2.2.2.2.2⟩

/-- Claim C10: the OBJ serializer's proxy-box rotation maps `(x, y, z)` to
`(x c - z s, y, x s + z c)`; it therefore equals the Placement Transformer's
yaw with the sine negated, and at 90 degrees (`c = 0, s = 1`) it sends
`(1, 0, 0)` to `(0, 0, 1)` while the transformer's yaw sends it to
`(0, 0, -1)` — the opposite rotation sense. -/
theorem C10_obj_rotation_opposite_sense :
    (∀ c s x y z : ℚ, objRotate c s (x, y, z) = (x * c - z * s, y, x * s + z * c)) ∧
    (∀ c s : ℚ, ∀ v : Vec3, objRotate c s v = yawRotate c (-s) v) ∧
    objRotate 0 1 (1, 0, 0) = (0, 0, 1) ∧
    yawRotate 0 1 (1, 0, 0) = (0, 0, -1) ∧
    (∀ c s : ℚ, ∀ p : PiecePlan, ∀ idx : ℕ, piece_vertices c s p idx =
      (objBaseVertices p).map
        (fun v => vadd (objRotate c s v) (objNormalizeCenter p.center_of_mass idx))) := by
  refine ⟨fun c s x y z => rfl, ?_, by norm_num [objRotate],
    by norm_num [yawRotate], fun c s p idx => rfl⟩
  intro c s v
  simp only [objRotate, yawRotate]
  refine Prod.ext (by ring) (Prod.ext rfl (by ring))

theorem stepEdge_fst_mono (verts : List Vec3) (tol : ℚ) (cur nxt : ℕ)
    (dcur dnxt : ℚ) (acc : List ℕ × ClipState) :
    ∃ ext, (stepEdge verts tol cur nxt dcur dnxt acc).1 = acc.1 ++ ext := by
  simp only [stepEdge]
  split
  · split
    · exact ⟨_, List.append_assoc _ _ _⟩
    · exact ⟨_, List.append_assoc _ _ _⟩
  · exact ⟨_, rfl⟩

theorem stepEdge_fst_subset (verts : List Vec3) (tol : ℚ) (cur nxt : ℕ)
    (dcur dnxt : ℚ) (acc : List ℕ × ClipState) {i : ℕ} (h : i ∈ acc.1) :
    i ∈ (stepEdge verts tol cur nxt dcur dnxt acc).1 := by
  obtain ⟨ext, he⟩ := stepEdge_fst_mono verts tol cur nxt dcur dnxt acc
  rw [he]
  exact List.mem_append_left _ h

theorem stepEdge_verts_mono (verts : List Vec3) (tol : ℚ) (cur nxt : ℕ)
    (dcur dnxt : ℚ) (acc : List ℕ × ClipState) :
    ∃ ext, (stepEdge verts tol cur nxt dcur dnxt acc).2.verts
      = acc.2.verts ++ ext := by
  simp only [stepEdge]
  split
  · split
    · exact ⟨[], (List.append_nil _).symm⟩
    · exact ⟨_, rfl⟩
  · exact ⟨[], (List.append_nil _).symm⟩

theorem stepEdge_verts_le (verts : List Vec3) (tol : ℚ) (cur nxt : ℕ)
    (dcur dnxt : ℚ) (acc : List ℕ × ClipState) :
    acc.2.verts.length ≤ (stepEdge verts tol cur nxt dcur dnxt acc).2.verts.length := by
  obtain ⟨ext, he⟩ := stepEdge_verts_mono verts tol cur nxt dcur dnxt acc
  rw [he, List.length_append]
  exact Nat.le_add_right _ _

theorem stepEdge_getD_stable (verts : List Vec3) (tol : ℚ) (cur nxt : ℕ)
    (dcur dnxt : ℚ) (acc : List ℕ × ClipState) {i : ℕ}
    (h : i < acc.2.verts.length) :
    (stepEdge verts tol cur nxt dcur dnxt acc).2.verts.getD i zeroV
      = acc.2.verts.getD i zeroV := by
  obtain ⟨ext, he⟩ := stepEdge_verts_mono verts tol cur nxt dcur dnxt acc
  rw [he]
  exact List.getD_append _ _ _ _ h

theorem stepEdge_cache_mono (verts : List Vec3) (tol : ℚ) (cur nxt : ℕ)
    (dcur dnxt : ℚ) (acc : List ℕ × ClipState) {k : ℕ × ℕ} {v : ℕ}
    (h : cacheLookup acc.2.cache k = some v) :
    cacheLookup (stepEdge verts tol cur nxt dcur dnxt acc).2.cache k = some v := by
  simp only [stepEdge]
  split
  · split
    · exact h
    · rename_i heq
      simp only [cacheLookup]
      rw [if_neg]
      · exact h
      · intro e
        rw [e, heq] at h
        exact Option.noConfusion h
  · exact h

theorem stepEdge_inv (verts : List Vec3) (tol : ℚ) (cur nxt : ℕ)
    (dcur dnxt : ℚ) (acc : List ℕ × ClipState) (hinv : ClipInv acc.2) :
    ClipInv (stepEdge verts tol cur nxt dcur dnxt acc).2 := by
  simp only [stepEdge]
  split
  · split
    · exact hinv
    · intro k i h
      simp only [cacheLookup] at h
      by_cases hk : k = sortPair cur nxt
      · rw [if_pos hk] at h
        cases h
        simp [List.length_append]
      · rw [if_neg hk] at h
        have := hinv k i h
        simp only [List.length_append, List.length_cons, List.length_nil]
        omega
  · exact hinv

theorem stepEdge_emit (verts : List Vec3) (tol : ℚ) (cur nxt : ℕ)
    (dcur dnxt : ℚ) (acc : List ℕ × ClipState) (hinv : ClipInv acc.2)
    (hc : crossesEdge tol dcur dnxt) :
    ∃ i, cacheLookup (stepEdge verts tol cur nxt dcur dnxt acc).2.cache
        (sortPair cur nxt) = some i ∧
      i ∈ (stepEdge verts tol cur nxt dcur dnxt acc).1 ∧
      i < (stepEdge verts tol cur nxt dcur dnxt acc).2.verts.length := by
  simp only [stepEdge, if_pos hc]
  rcases heq : cacheLookup acc.2.cache (sortPair cur nxt) with _ | i
  · refine ⟨acc.2.verts.length, ?_, ?_, ?_⟩
    · simp [cacheLookup]
    · exact List.mem_append_right _ (List.mem_singleton.mpr rfl)
    · simp [List.length_append]
  · refine ⟨i, heq, ?_, ?_⟩
    · exact List.mem_append_right _ (List.mem_singleton.mpr rfl)
    · exact hinv _ _ heq

theorem stepEdge_emit_hit (verts : List Vec3) (tol : ℚ) (cur nxt : ℕ)
    (dcur dnxt : ℚ) (acc : List ℕ × ClipState) {i : ℕ}
    (hc : crossesEdge tol dcur dnxt)
    (h : cacheLookup acc.2.cache (sortPair cur nxt) = some i) :
    i ∈ (stepEdge verts tol cur nxt dcur dnxt acc).1 := by
  simp only [stepEdge, if_pos hc, h]
  exact List.mem_append_right _ (List.mem_singleton.mpr rfl)

theorem clipFace_cache_mono (verts : List Vec3) (tol : ℚ) (f : Face)
    (d0 d1 d2 : ℚ) (st : ClipState) {k : ℕ × ℕ} {v : ℕ}
    (h : cacheLookup st.cache k = some v) :
    cacheLookup (clipFace verts tol f d0 d1 d2 st).2.cache k = some v := by
  simp only [clipFace]
  exact stepEdge_cache_mono _ _ _ _ _ _ _
    (stepEdge_cache_mono _ _ _ _ _ _ _
      (stepEdge_cache_mono _ _ _ _ _ _ ([], st) h))

theorem clipFace_inv (verts : List Vec3) (tol : ℚ) (f : Face)
    (d0 d1 d2 : ℚ) (st : ClipState) (hinv : ClipInv st) :
    ClipInv (clipFace verts tol f d0 d1 d2 st).2 := by
  simp only [clipFace]
  exact stepEdge_inv _ _ _ _ _ _ _
    (stepEdge_inv _ _ _ _ _ _ _
      (stepEdge_inv _ _ _ _ _ _ ([], st) hinv))

theorem clipFace_verts_le (verts : List Vec3) (tol : ℚ) (f : Face)
    (d0 d1 d2 : ℚ) (st : ClipState) :
    st.verts.length ≤ (clipFace verts tol f d0 d1 d2 st).2.verts.length := by
  simp only [clipFace]
  exact le_trans (stepEdge_verts_le _ _ _ _ _ _ ([], st))
    (le_trans (stepEdge_verts_le _ _ _ _ _ _ _)
      (stepEdge_verts_le _ _ _ _ _ _ _))

theorem clipFace_getD_stable (verts : List Vec3) (tol : ℚ) (f : Face)
    (d0 d1 d2 : ℚ) (st : ClipState) {i : ℕ} (h : i < st.verts.length) :
    (clipFace verts tol f d0 d1 d2 st).2.verts.getD i zeroV
      = st.verts.getD i zeroV := by
  simp only [clipFace]
  have h1 : i < (stepEdge verts tol f.1 f.2.1 d0 d1 ([], st)).2.verts.length :=
    lt_of_lt_of_le h (stepEdge_verts_le _ _ _ _ _ _ ([], st))
  have h2 : i < (stepEdge verts tol f.2.1 f.2.2 d1 d2
      (stepEdge verts tol f.1 f.2.1 d0 d1 ([], st))).2.verts.length :=
    lt_of_lt_of_le h1 (stepEdge_verts_le _ _ _ _ _ _ _)
  rw [stepEdge_getD_stable _ _ _ _ _ _ _ h2,
    stepEdge_getD_stable _ _ _ _ _ _ _ h1,
    stepEdge_getD_stable _ _ _ _ _ _ ([], st) h]

theorem clipFace_emit (verts : List Vec3) (tol : ℚ) (f : Face)
    (d0 d1 d2 : ℚ) (st : ClipState) {k : ℕ × ℕ} (hinv : ClipInv st)
    (hc : crossedKey f d0 d1 d2 tol k) :
    ∃ i, cacheLookup (clipFace verts tol f d0 d1 d2 st).2.cache k = some i ∧
      i ∈ (clipFace verts tol f d0 d1 d2 st).1 ∧
      i < (clipFace verts tol f d0 d1 d2 st).2.verts.length := by
  simp only [clipFace]
  rcases hc with ⟨hce, rfl⟩ | ⟨hce, rfl⟩ | ⟨hce, rfl⟩
  · obtain ⟨i, hl, hm, hb⟩ :=
      stepEdge_emit verts tol f.1 f.2.1 d0 d1 ([], st) hinv hce
    refine ⟨i, ?_, ?_, ?_⟩
    · exact stepEdge_cache_mono _ _ _ _ _ _ _
        (stepEdge_cache_mono _ _ _ _ _ _ _ hl)
    · exact stepEdge_fst_subset _ _ _ _ _ _ _
        (stepEdge_fst_subset _ _ _ _ _ _ _ hm)
    · exact lt_of_lt_of_le hb
        (le_trans (stepEdge_verts_le _ _ _ _ _ _ _)
          (stepEdge_verts_le _ _ _ _ _ _ _))
  · obtain ⟨i, hl, hm, hb⟩ :=
      stepEdge_emit verts tol f.2.1 f.2.2 d1 d2
        (stepEdge verts tol f.1 f.2.1 d0 d1 ([], st))
        (stepEdge_inv _ _ _ _ _ _ ([], st) hinv) hce
    refine ⟨i, ?_, ?_, ?_⟩
    · exact stepEdge_cache_mono _ _ _ _ _ _ _ hl
    · exact stepEdge_fst_subset _ _ _ _ _ _ _ hm
    · exact lt_of_lt_of_le hb (stepEdge_verts_le _ _ _ _ _ _ _)
  · obtain ⟨i, hl, hm, hb⟩ :=
      stepEdge_emit verts tol f.2.2 f.1 d2 d0
        (stepEdge verts tol f.2.1 f.2.2 d1 d2
          (stepEdge verts tol f.1 f.2.1 d0 d1 ([], st)))
        (stepEdge_inv _ _ _ _ _ _ _
          (stepEdge_inv _ _ _ _ _ _ ([], st) hinv)) hce
    exact ⟨i, hl, hm, hb⟩

theorem clipFace_emit_hit (verts : List Vec3) (tol : ℚ) (f : Face)
    (d0 d1 d2 : ℚ) (st : ClipState) {k : ℕ × ℕ} {i : ℕ}
    (hc : crossedKey f d0 d1 d2 tol k)
    (h : cacheLookup st.cache k = some i) :
    i ∈ (clipFace verts tol f d0 d1 d2 st).1 := by
  simp only [clipFace]
  rcases hc with ⟨hce, rfl⟩ | ⟨hce, rfl⟩ | ⟨hce, rfl⟩
  · exact stepEdge_fst_subset _ _ _ _ _ _ _
      (stepEdge_fst_subset _ _ _ _ _ _ _
        (stepEdge_emit_hit _ _ _ _ _ _ ([], st) hce h))
  · exact stepEdge_fst_subset _ _ _ _ _ _ _
      (stepEdge_emit_hit _ _ _ _ _ _ _ hce
        (stepEdge_cache_mono _ _ _ _ _ _ ([], st) h))
  · exact stepEdge_emit_hit _ _ _ _ _ _ _ hce
      (stepEdge_cache_mono _ _ _ _ _ _ _
        (stepEdge_cache_mono _ _ _ _ _ _ ([], st) h))

/-- Claim C2: within a single clip operation, a crossed edge shared by two
faces produces exactly one interpolated vertex: after clipping the first
face, the cache holds a single index for the unordered edge key; the second
face's clipped polygon reuses that same index (no second vertex is created
for that edge), and the coordinates stored at that index are unchanged —
both faces reference the bit-identical split point. -/
theorem C2_shared_edge_single_split (verts : List Vec3) (tol : ℚ)
    (st : ClipState) (f g : Face) (df0 df1 df2 dg0 dg1 dg2 : ℚ) (k : ℕ × ℕ)
    (hinv : ClipInv st)
    (hf : crossedKey f df0 df1 df2 tol k)
    (hg : crossedKey g dg0 dg1 dg2 tol k) :
    ∃ i,
      cacheLookup (clipFace verts tol f df0 df1 df2 st).2.cache k = some i ∧
      cacheLookup (clipFace verts tol g dg0 dg1 dg2
        (clipFace verts tol f df0 df1 df2 st).2).2.cache k = some i ∧
      i ∈ (clipFace verts tol f df0 df1 df2 st).1 ∧
      i ∈ (clipFace verts tol g dg0 dg1 dg2
        (clipFace verts tol f df0 df1 df2 st).2).1 ∧
      (clipFace verts tol g dg0 dg1 dg2
        (clipFace verts tol f df0 df1 df2 st).2).2.verts.getD i zeroV
        = (clipFace verts tol f df0 df1 df2 st).2.verts.getD i zeroV := by
  obtain ⟨i, h1l, h1m, h1b⟩ := clipFace_emit verts tol f df0 df1 df2 st hinv hf
  refine ⟨i, h1l, ?_, h1m, ?_, ?_⟩
  · exact clipFace_cache_mono _ _ _ _ _ _ _ h1l
  · exact clipFace_emit_hit _ _ _ _ _ _ _ hg h1l
  · exact clipFace_getD_stable _ _ _ _ _ _ _ h1b

theorem C2_shared_edge_single_split_witness :
    ∃ i,
      cacheLookup (clipFace vertsC2 (1/1000000) (0, 1, 2) 1 (-1) 1
        ⟨[], vertsC2⟩).2.cache (0, 1) = some i ∧
      cacheLookup (clipFace vertsC2 (1/1000000) (0, 1, 3) 1 (-1) 1
        (clipFace vertsC2 (1/1000000) (0, 1, 2) 1 (-1) 1
          ⟨[], vertsC2⟩).2).2.cache (0, 1) = some i ∧
      i ∈ (clipFace vertsC2 (1/1000000) (0, 1, 2) 1 (-1) 1 ⟨[], vertsC2⟩).1 ∧
      i ∈ (clipFace vertsC2 (1/1000000) (0, 1, 3) 1 (-1) 1
        (clipFace vertsC2 (1/1000000) (0, 1, 2) 1 (-1) 1
          ⟨[], vertsC2⟩).2).1 ∧
      (clipFace vertsC2 (1/1000000) (0, 1, 3) 1 (-1) 1
        (clipFace vertsC2 (1/1000000) (0, 1, 2) 1 (-1) 1
          ⟨[], vertsC2⟩).2).2.verts.getD i zeroV
        = (clipFace vertsC2 (1/1000000) (0, 1, 2) 1 (-1) 1
          ⟨[], vertsC2⟩).2.verts.getD i zeroV :=
  C2_shared_edge_single_split vertsC2 (1/1000000) ⟨[], vertsC2⟩
    (0, 1, 2) (0, 1, 3) 1 (-1) 1 1 (-1) 1 (0, 1)
    (by
      intro k i h
      simp [cacheLookup] at h)
    (Or.inl ⟨Or.inl ⟨by norm_num, by norm_num⟩, by simp [sortPair]⟩)
    (Or.inl ⟨Or.inl ⟨by norm_num, by norm_num⟩, by simp [sortPair]⟩)

/-! ### Helper lemmas for the clipping idempotence development -/

theorem getD_map_getD (V : List Vec3) :
    ∀ (keep : List ℕ) (j : ℕ), j < keep.length →
    (keep.map (fun i => V.getD i zeroV)).getD j zeroV
      = V.getD (keep.getD j 0) zeroV := by
  intro keep
  induction keep with
  | nil => intro j hj; simp at hj
  | cons a rest ih =>
      intro j hj
      cases j with
      | zero => rfl
      | succ j =>
          simp only [List.map_cons, List.getD_cons_succ]
          exact ih j (by simpa using Nat.lt_of_succ_lt_succ hj)

theorem mem_removeEq (v : Vec3) : ∀ (l : List Vec3) (u : Vec3),
    u ∈ removeEq v l ↔ u ∈ l ∧ u ≠ v := by
  intro l
  induction l with
  | nil => intro u; simp [removeEq]
  | cons w rest ih =>
      intro u
      simp only [removeEq]
      split
      · rename_i hw
        subst hw
        rw [ih u]
        constructor
        · exact fun ⟨h1, h2⟩ => ⟨List.mem_cons_of_mem _ h1, h2⟩
        · rintro ⟨h1, h2⟩
          rcases List.mem_cons.mp h1 with h | h
          · exact absurd h h2
          · exact ⟨h, h2⟩
      · rename_i hw
        constructor
        · intro hu
          rcases List.mem_cons.mp hu with h | h
          · subst h; exact ⟨List.mem_cons_self _ _, hw⟩
          · obtain ⟨h1, h2⟩ := (ih u).mp h
            exact ⟨List.mem_cons_of_mem _ h1, h2⟩
        · rintro ⟨h1, h2⟩
          rcases List.mem_cons.mp h1 with h | h
          · subst h; exact List.mem_cons_self _ _
          · exact List.mem_cons_of_mem _ ((ih u).mpr ⟨h, h2⟩)

theorem firstDedup_cons (v : Vec3) (rest : List Vec3) :
    firstDedup (v :: rest) = v :: firstDedup (removeEq v rest) := by
  rw [firstDedup]

theorem mem_firstDedup : ∀ (l : List Vec3) (u : Vec3),
    u ∈ firstDedup l ↔ u ∈ l := by
  intro l
  induction l using firstDedup.induct with
  | case1 => intro u; simp [firstDedup]
  | case2 v rest ih =>
      intro u
      rw [firstDedup_cons]
      by_cases hu : u = v
      · subst hu; simp
      · simp only [List.mem_cons]
        rw [ih u, mem_removeEq]
        constructor
        · rintro (h | ⟨h1, _⟩)
          · exact Or.inl h
          · exact Or.inr h1
        · rintro (h | h)
          · exact Or.inl h
          · exact Or.inr ⟨h, hu⟩

theorem firstDedup_nodup : ∀ l : List Vec3, (firstDedup l).Nodup := by
  intro l
  induction l using firstDedup.induct with
  | case1 => simp [firstDedup]
  | case2 v rest ih =>
      rw [firstDedup_cons]
      refine List.nodup_cons.mpr ⟨?_, ih⟩
      intro hv
      exact ((mem_removeEq v rest v).mp
        ((mem_firstDedup _ v).mp hv)).2 rfl

theorem removeEq_of_not_mem (v : Vec3) : ∀ (l : List Vec3), v ∉ l →
    removeEq v l = l := by
  intro l
  induction l with
  | nil => intro _; rfl
  | cons w rest ih =>
      intro hv
      simp only [removeEq]
      rw [if_neg, ih (fun h => hv (List.mem_cons_of_mem _ h))]
      intro hw
      exact hv (hw ▸ List.mem_cons_self _ _)

theorem firstDedup_eq_self : ∀ l : List Vec3, l.Nodup → firstDedup l = l := by
  intro l
  induction l using firstDedup.induct with
  | case1 => intro _; simp [firstDedup]
  | case2 v rest ih =>
      intro hnd
      obtain ⟨hv, hrest⟩ := List.nodup_cons.mp hnd
      have he : removeEq v rest = rest := removeEq_of_not_mem v rest hv
      rw [he] at ih
      rw [firstDedup_cons, he, ih hrest]

theorem idxOf_lt_length (u : Vec3) : ∀ l : List Vec3, u ∈ l →
    idxOf u l < l.length := by
  intro l
  induction l with
  | nil => intro h; simp at h
  | cons w rest ih =>
      intro hu
      simp only [idxOf]
      split
      · simp
      · rename_i hw
        rcases List.mem_cons.mp hu with h | h
        · exact absurd h.symm hw
        · simpa using Nat.succ_lt_succ (ih h)

theorem getD_idxOf (u : Vec3) : ∀ l : List Vec3, u ∈ l →
    l.getD (idxOf u l) zeroV = u := by
  intro l
  induction l with
  | nil => intro h; simp at h
  | cons w rest ih =>
      intro hu
      simp only [idxOf]
      split
      · rename_i hw; simpa using hw
      · rename_i hw
        rcases List.mem_cons.mp hu with h | h
        · exact absurd h.symm hw
        · simpa using ih h

theorem getD_mem (l : List Vec3) (i : ℕ) (h : i < l.length) :
    l.getD i zeroV ∈ l := by
  rw [List.getD_eq_getElem l zeroV h]
  exact List.getElem_mem h

theorem getD_inj (l : List Vec3) (hnd : l.Nodup) {a b : ℕ}
    (ha : a < l.length) (hb : b < l.length)
    (h : l.getD a zeroV = l.getD b zeroV) : a = b := by
  have hinj := List.nodup_iff_injective_get.mp hnd
  have h2 : (⟨a, ha⟩ : Fin l.length) = ⟨b, hb⟩ := by
    apply hinj
    simpa only [List.get_eq_getElem, List.getD_eq_getElem l zeroV ha,
      List.getD_eq_getElem l zeroV hb] using h
  exact congrArg Fin.val h2

theorem idxOf_getD (l : List Vec3) (hnd : l.Nodup) {i : ℕ}
    (hi : i < l.length) : idxOf (l.getD i zeroV) l = i := by
  have hm : l.getD i zeroV ∈ l := getD_mem l i hi
  exact getD_inj l hnd (idxOf_lt_length _ l hm) hi (getD_idxOf _ l hm)

theorem idxIn_lt_length (a : ℕ) : ∀ l : List ℕ, a ∈ l →
    idxIn a l < l.length := by
  intro l
  induction l with
  | nil => intro h; simp at h
  | cons w rest ih =>
      intro ha
      simp only [idxIn]
      split
      · simp
      · rename_i hw
        rcases List.mem_cons.mp ha with h | h
        · exact absurd h.symm hw
        · simpa using Nat.succ_lt_succ (ih h)

theorem getD_idxIn (a : ℕ) : ∀ l : List ℕ, a ∈ l →
    l.getD (idxIn a l) 0 = a := by
  intro l
  induction l with
  | nil => intro h; simp at h
  | cons w rest ih =>
      intro ha
      simp only [idxIn]
      split
      · rename_i hw; simpa using hw
      · rename_i hw
        rcases List.mem_cons.mp ha with h | h
        · exact absurd h.symm hw
        · simpa using ih h

theorem natGetD_mem (l : List ℕ) (i : ℕ) (h : i < l.length) :
    l.getD i 0 ∈ l := by
  rw [List.getD_eq_getElem l 0 h]
  exact List.getElem_mem h

theorem natGetD_inj (l : List ℕ) (hnd : l.Nodup) {a b : ℕ}
    (ha : a < l.length) (hb : b < l.length)
    (h : l.getD a 0 = l.getD b 0) : a = b := by
  have hinj := List.nodup_iff_injective_get.mp hnd
  have h2 : (⟨a, ha⟩ : Fin l.length) = ⟨b, hb⟩ := by
    apply hinj
    simpa only [List.get_eq_getElem, List.getD_eq_getElem l 0 ha,
      List.getD_eq_getElem l 0 hb] using h
  exact congrArg Fin.val h2

theorem idxIn_getD (l : List ℕ) (hnd : l.Nodup) {j : ℕ}
    (hj : j < l.length) : idxIn (l.getD j 0) l = j := by
  have hm : l.getD j 0 ∈ l := natGetD_mem l j hj
  exact natGetD_inj l hnd (idxIn_lt_length _ l hm) hj (getD_idxIn _ l hm)

theorem mem_keepRefd (faces : List Face) : ∀ (l : List ℕ) (a : ℕ),
    a ∈ keepRefd faces l ↔ a ∈ l ∧ referencedB a faces = true := by
  intro l
  induction l with
  | nil => intro a; simp [keepRefd]
  | cons w rest ih =>
      intro a
      simp only [keepRefd]
      split
      · rename_i hw
        by_cases ha : a = w
        · subst ha; simp [hw]
        · simp only [List.mem_cons]
          rw [ih a]
          constructor
          · rintro (h | ⟨h1, h2⟩)
            · exact absurd h ha
            · exact ⟨Or.inr h1, h2⟩
          · rintro ⟨h | h, h2⟩
            · exact absurd h ha
            · exact Or.inr ⟨h, h2⟩
      · rename_i hw
        rw [ih a]
        constructor
        · rintro ⟨h1, h2⟩
          exact ⟨List.mem_cons_of_mem _ h1, h2⟩
        · rintro ⟨h1, h2⟩
          rcases List.mem_cons.mp h1 with h | h
          · subst h; exact absurd h2 hw
          · exact ⟨h, h2⟩

theorem keepRefd_sublist (faces : List Face) : ∀ l : List ℕ,
    (keepRefd faces l).Sublist l := by
  intro l
  induction l with
  | nil => simp [keepRefd]
  | cons w rest ih =>
      simp only [keepRefd]
      split
      · exact List.Sublist.cons₂ w ih
      · exact List.Sublist.cons w ih

theorem keepRefd_nodup (faces : List Face) (l : List ℕ) (h : l.Nodup) :
    (keepRefd faces l).Nodup :=
  (keepRefd_sublist faces l).nodup h

theorem keepRefd_eq_self (faces : List Face) : ∀ l : List ℕ,
    (∀ a ∈ l, referencedB a faces = true) → keepRefd faces l = l := by
  intro l
  induction l with
  | nil => intro _; rfl
  | cons w rest ih =>
      intro h
      simp only [keepRefd]
      rw [if_pos (h w (List.mem_cons_self _ _)),
        ih (fun a ha => h a (List.mem_cons_of_mem _ ha))]

theorem referencedB_iff (i : ℕ) : ∀ faces : List Face,
    referencedB i faces = true ↔
      ∃ f ∈ faces, f.1 = i ∨ f.2.1 = i ∨ f.2.2 = i := by
  intro faces
  induction faces with
  | nil => simp [referencedB]
  | cons f rest ih =>
      simp only [referencedB]
      split
      · rename_i hf
        simp only [true_iff]
        exact ⟨f, List.mem_cons_self _ _, hf⟩
      · rename_i hf
        rw [ih]
        constructor
        · rintro ⟨g, hg, hc⟩
          exact ⟨g, List.mem_cons_of_mem _ hg, hc⟩
        · rintro ⟨g, hg, hc⟩
          rcases List.mem_cons.mp hg with h | h
          · subst h; exact absurd hc hf
          · exact ⟨g, h, hc⟩

theorem map_getD_range (l : List Vec3) :
    (List.range l.length).map (fun i => l.getD i zeroV) = l := by
  apply List.ext_getElem
  · simp
  · intro i h1 h2
    simp only [List.getElem_map, List.getElem_range]
    rw [List.getD_eq_getElem l zeroV h2]

theorem idxIn_range {i n : ℕ} (h : i < n) : idxIn i (List.range n) = i := by
  have hg : (List.range n).getD i 0 = i := by
    rw [List.getD_eq_getElem _ 0 (by simpa using h)]
    simp
  conv_lhs => rw [← hg]
  exact idxIn_getD (List.range n) (List.nodup_range _) (by simpa using h)

theorem countE_append (e : ℕ × ℕ) : ∀ l1 l2 : List (ℕ × ℕ),
    countE e (l1 ++ l2) = countE e l1 + countE e l2 := by
  intro l1 l2
  induction l1 with
  | nil => simp [countE]
  | cons x rest ih =>
      by_cases hx : x = e
      · simp only [List.cons_append, countE, List.append_eq, if_pos hx, ih]
        omega
      · simp only [List.cons_append, countE, List.append_eq, if_neg hx, ih]

theorem allEdges_append : ∀ F A : List Face,
    allEdges (F ++ A) = allEdges F ++ allEdges A := by
  intro F A
  induction F with
  | nil => simp [allEdges]
  | cons f rest ih =>
      rw [List.cons_append]
      simp only [allEdges]
      rw [ih, List.append_assoc]

theorem edgeCount_append (F A : List Face) (e : ℕ × ℕ) :
    edgeCount (F ++ A) e = edgeCount F e + edgeCount A e := by
  unfold edgeCount
  rw [allEdges_append, countE_append]

theorem countE_pos_iff_mem (e : ℕ × ℕ) : ∀ l : List (ℕ × ℕ),
    0 < countE e l ↔ e ∈ l := by
  intro l
  induction l with
  | nil => simp [countE]
  | cons x rest ih =>
      simp only [countE]
      split
      · rename_i hx
        subst hx
        simp
      · rename_i hx
        rw [ih]
        constructor
        · exact fun h => List.mem_cons_of_mem _ h
        · intro h
          rcases List.mem_cons.mp h with h | h
          · exact absurd h.symm hx
          · exact h

theorem mem_allEdges (e : ℕ × ℕ) : ∀ faces : List Face,
    e ∈ allEdges faces ↔ ∃ f ∈ faces, e ∈ undirEdges f := by
  intro faces
  induction faces with
  | nil => simp [allEdges]
  | cons f rest ih =>
      simp only [allEdges, List.mem_append, ih]
      constructor
      · rintro (h | ⟨g, hg, he⟩)
        · exact ⟨f, List.mem_cons_self _ _, h⟩
        · exact ⟨g, List.mem_cons_of_mem _ hg, he⟩
      · rintro ⟨g, hg, he⟩
        rcases List.mem_cons.mp hg with h | h
        · subst h; exact Or.inl he
        · exact Or.inr ⟨g, h, he⟩

theorem mergeVertices_eq_self (m : Mesh) (hnd : m.vertices.Nodup)
    (hv : validFaces m) : mergeVertices m = m := by
  have hd : firstDedup m.vertices = m.vertices := firstDedup_eq_self _ hnd
  have hf : ∀ f ∈ m.faces,
      (idxOf (m.vertices.getD f.1 zeroV) m.vertices,
       idxOf (m.vertices.getD f.2.1 zeroV) m.vertices,
       idxOf (m.vertices.getD f.2.2 zeroV) m.vertices) = id f := by
    intro f hfm
    obtain ⟨h1, h2, h3⟩ := hv f hfm
    rw [idxOf_getD _ hnd h1, idxOf_getD _ hnd h2, idxOf_getD _ hnd h3]
    rfl
  simp only [mergeVertices, hd]
  rw [List.map_congr_left hf, List.map_id]

theorem remove_unreferenced_eq_self (m : Mesh) (hv : validFaces m)
    (href : ∀ i, i < m.vertices.length → referencedB i m.faces = true) :
    remove_unreferenced_vertices m = m := by
  have hkeep : keepRefd m.faces (List.range m.vertices.length)
      = List.range m.vertices.length :=
    keepRefd_eq_self _ _ (fun a ha => href a (List.mem_range.mp ha))
  have hf : ∀ f ∈ m.faces,
      (idxIn f.1 (List.range m.vertices.length),
       idxIn f.2.1 (List.range m.vertices.length),
       idxIn f.2.2 (List.range m.vertices.length)) = id f := by
    intro f hfm
    obtain ⟨h1, h2, h3⟩ := hv f hfm
    rw [idxIn_range h1, idxIn_range h2, idxIn_range h3]
    rfl
  simp only [remove_unreferenced_vertices, hkeep, map_getD_range]
  rw [List.map_congr_left hf, List.map_id]

theorem fill_holes_eq_self (m : Mesh) (h : holeTriangles m = []) :
    fill_holes m = m := by
  simp [fill_holes, h]

theorem isBoundary_iff (faces : List Face) (e : ℕ × ℕ) :
    isBoundary faces e = true ↔ edgeCount faces e = 1 := by
  simp [isBoundary]

theorem mem_candsFor (faces : List Face) (a b : ℕ) : ∀ (l : List ℕ) (t : Face),
    t ∈ candsFor faces a b l ↔ ∃ c ∈ l, b < c ∧
      isBoundary faces (b, c) = true ∧ isBoundary faces (a, c) = true ∧
      t = (a, b, c) := by
  intro l
  induction l with
  | nil => intro t; simp [candsFor]
  | cons c rest ih =>
      intro t
      simp only [candsFor]
      split
      · rename_i hc
        obtain ⟨hbc, hb1, hb2⟩ := hc
        simp only [List.mem_cons]
        constructor
        · intro ht
          rcases ht with h | h
          · exact ⟨c, Or.inl rfl, hbc, hb1, hb2, h⟩
          · obtain ⟨c', hc', h1, h2, h3, h4⟩ := (ih t).mp h
            exact ⟨c', Or.inr hc', h1, h2, h3, h4⟩
        · rintro ⟨c', hc', h1, h2, h3, h4⟩
          rcases hc' with h | h
          · subst h; subst h4; exact Or.inl rfl
          · exact Or.inr ((ih t).mpr ⟨c', h, h1, h2, h3, h4⟩)
      · rename_i hc
        rw [ih t]
        constructor
        · rintro ⟨c', hc', h1, h2, h3, h4⟩
          exact ⟨c', List.mem_cons_of_mem _ hc', h1, h2, h3, h4⟩
        · rintro ⟨c', hc', h1, h2, h3, h4⟩
          rcases List.mem_cons.mp hc' with h | h
          · subst h
            exact absurd ⟨h1, h2, h3⟩ hc
          · exact ⟨c', h, h1, h2, h3, h4⟩

theorem mem_holesFrom (faces : List Face) (n : ℕ) :
    ∀ (l : List (ℕ × ℕ)) (t : Face),
    t ∈ holesFrom faces n l ↔
      ∃ p ∈ l, p.1 < p.2 ∧ t ∈ candsFor faces p.1 p.2 (List.range n) := by
  intro l
  induction l with
  | nil => intro t; simp [holesFrom]
  | cons p rest ih =>
      intro t
      obtain ⟨a, b⟩ := p
      simp only [holesFrom, List.mem_append]
      rw [ih t]
      constructor
      · rintro (h | ⟨q, hq, h1, h2⟩)
        · by_cases hab : a < b
          · rw [if_pos hab] at h
            exact ⟨(a, b), List.mem_cons_self _ _, hab, h⟩
          · rw [if_neg hab] at h
            simp at h
        · exact ⟨q, List.mem_cons_of_mem _ hq, h1, h2⟩
      · rintro ⟨q, hq, h1, h2⟩
        rcases List.mem_cons.mp hq with h | h
        · subst h
          exact Or.inl (by rw [if_pos h1]; exact h2)
        · exact Or.inr ⟨q, h, h1, h2⟩

theorem mem_holeTriangles (m : Mesh) (t : Face) :
    t ∈ holeTriangles m ↔ ∃ a b c : ℕ, t = (a, b, c) ∧ a < b ∧ b < c ∧
      c < m.vertices.length ∧ (a, b) ∈ allEdges m.faces ∧
      edgeCount m.faces (a, b) = 1 ∧ edgeCount m.faces (b, c) = 1 ∧
      edgeCount m.faces (a, c) = 1 := by
  unfold holeTriangles
  rw [mem_holesFrom]
  constructor
  · rintro ⟨p, hp, hlt, hc⟩
    obtain ⟨hmem, hbd⟩ := List.mem_filter.mp hp
    obtain ⟨c, hcr, h1, h2, h3, h4⟩ := (mem_candsFor _ _ _ _ t).mp hc
    exact ⟨p.1, p.2, c, h4, hlt, h1, List.mem_range.mp hcr, hmem,
      (isBoundary_iff _ _).mp hbd, (isBoundary_iff _ _).mp h2,
      (isBoundary_iff _ _).mp h3⟩
  · rintro ⟨a, b, c, ht, hab, hbc, hcn, hmem, h1, h2, h3⟩
    refine ⟨(a, b), List.mem_filter.mpr ⟨hmem, (isBoundary_iff _ _).mpr h1⟩,
      hab, (mem_candsFor _ _ _ _ t).mpr ⟨c, List.mem_range.mpr hcn, hbc,
        (isBoundary_iff _ _).mpr h2, (isBoundary_iff _ _).mpr h3, ht⟩⟩

theorem sortPair_of_le {a b : ℕ} (h : a ≤ b) : sortPair a b = (a, b) := by
  simp [sortPair, h]

theorem sortPair_of_gt {a b : ℕ} (h : b < a) : sortPair a b = (b, a) := by
  have : ¬ a ≤ b := not_le.mpr h
  simp [sortPair, this]

theorem holeTriangle_edges (m : Mesh) {t : Face} (ht : t ∈ holeTriangles m) :
    ∀ e ∈ undirEdges t, edgeCount m.faces e = 1 := by
  obtain ⟨a, b, c, rfl, hab, hbc, _, _, h1, h2, h3⟩ :=
    (mem_holeTriangles m t).mp ht
  intro e he
  have hu : undirEdges (a, b, c) = [(a, b), (b, c), (a, c)] := by
    simp only [undirEdges]
    rw [sortPair_of_le (le_of_lt hab), sortPair_of_le (le_of_lt hbc),
      sortPair_of_gt (lt_trans hab hbc)]
  rw [hu] at he
  rcases List.mem_cons.mp he with h | h
  · subst h; exact h1
  rcases List.mem_cons.mp h with h | h
  · subst h; exact h2
  rcases List.mem_cons.mp h with h | h
  · subst h; exact h3
  · simp at h

theorem sortPair_cases (u v : ℕ) :
    sortPair u v = (u, v) ∨ sortPair u v = (v, u) := by
  unfold sortPair
  split
  · exact Or.inl rfl
  · exact Or.inr rfl

theorem comp_of_undirEdges {f : Face} {e : ℕ × ℕ} (he : e ∈ undirEdges f) :
    isComp f e.1 ∧ isComp f e.2 := by
  simp only [undirEdges, List.mem_cons, List.not_mem_nil, or_false] at he
  rcases he with h | h | h <;>
    rcases sortPair_cases _ _ with hs | hs <;>
      rw [hs] at h <;> subst h <;>
        simp [isComp]

theorem referencedB_append_left {i : ℕ} {F A : List Face}
    (h : referencedB i F = true) : referencedB i (F ++ A) = true := by
  rw [referencedB_iff] at h ⊢
  obtain ⟨f, hf, hc⟩ := h
  exact ⟨f, List.mem_append_left _ hf, hc⟩

theorem fill_no_new_holes (m : Mesh) : holeTriangles (fill_holes m) = [] := by
  rw [List.eq_nil_iff_forall_not_mem]
  intro t ht
  obtain ⟨a, b, c, rfl, hab, hbc, hcn, hmem, h1, h2, h3⟩ :=
    (mem_holeTriangles _ t).mp ht
  have hedges : ∀ e, edgeCount (fill_holes m).faces e
      = edgeCount m.faces e + edgeCount (holeTriangles m) e := by
    intro e
    simp only [fill_holes]
    exact edgeCount_append _ _ e
  have key : ∀ e, edgeCount (fill_holes m).faces e = 1 →
      edgeCount (holeTriangles m) e = 0 ∧ edgeCount m.faces e = 1 := by
    intro e he
    rw [hedges e] at he
    rcases Nat.eq_zero_or_pos (edgeCount (holeTriangles m) e) with h0 | hpos
    · exact ⟨h0, by omega⟩
    · exfalso
      have hmemA : e ∈ allEdges (holeTriangles m) :=
        (countE_pos_iff_mem e _).mp hpos
      obtain ⟨g, hg, hge⟩ := (mem_allEdges e _).mp hmemA
      have := holeTriangle_edges m hg e hge
      omega
  obtain ⟨ha1, hf1⟩ := key _ h1
  obtain ⟨ha2, hf2⟩ := key _ h2
  obtain ⟨ha3, hf3⟩ := key _ h3
  have hmemF : (a, b) ∈ allEdges m.faces := by
    have : 0 < edgeCount m.faces (a, b) := by omega
    exact (countE_pos_iff_mem _ _).mp this
  have htm : (a, b, c) ∈ holeTriangles m := by
    refine (mem_holeTriangles m _).mpr ⟨a, b, c, rfl, hab, hbc, ?_, hmemF,
      hf1, hf2, hf3⟩
    simpa [fill_holes] using hcn
  have : (a, b) ∈ allEdges (holeTriangles m) := by
    refine (mem_allEdges _ _).mpr ⟨(a, b, c), htm, ?_⟩
    simp only [undirEdges, List.mem_cons]
    exact Or.inl (sortPair_of_le (le_of_lt hab)).symm
  have : 0 < edgeCount (holeTriangles m) (a, b) :=
    (countE_pos_iff_mem _ _).mpr this
  omega

theorem dOf_append_left (V ext : List Vec3) (o n : Vec3) {i : ℕ}
    (h : i < V.length) : dOf (V ++ ext) o n i = dOf V o n i := by
  unfold dOf
  rw [List.getD_append _ _ _ _ h]

theorem IdxGood_extend {V : List Vec3} (ext : List Vec3) {o n : Vec3}
    {tol : ℚ} {i : ℕ} (h : IdxGood V o n tol i) :
    IdxGood (V ++ ext) o n tol i :=
  ⟨lt_of_lt_of_le h.1 (by simp), by rw [dOf_append_left V ext o n h.1]; exact h.2⟩

theorem FaceGood_extend {V : List Vec3} (ext : List Vec3) {o n : Vec3}
    {tol : ℚ} {f : Face} (h : FaceGood V o n tol f) :
    FaceGood (V ++ ext) o n tol f :=
  ⟨IdxGood_extend ext h.1, IdxGood_extend ext h.2.1, IdxGood_extend ext h.2.2⟩

theorem dOf_append_last (A : List Vec3) (p : Vec3) (o n : Vec3) :
    dOf (A ++ [p]) o n A.length = vdot (vsub p o) n := by
  unfold dOf
  rw [List.getD_append_right A [p] zeroV A.length (le_refl _)]
  simp

theorem interp_dOf_eq_zero (verts : List Vec3) (o n : Vec3) (cur nxt : ℕ)
    (hne : dOf verts o n cur ≠ dOf verts o n nxt) :
    vdot (vsub (interp verts cur nxt (dOf verts o n cur)
      (dOf verts o n nxt)) o) n = 0 := by
  have hd : dOf verts o n cur - dOf verts o n nxt ≠ 0 := sub_ne_zero.mpr hne
  simp only [interp, if_neg hd]
  unfold dOf at *
  set a := verts.getD cur zeroV with ha
  set b := verts.getD nxt zeroV with hb
  simp only [vdot, vsub, vadd, vsmul] at *
  field_simp at *
  ring

theorem stepEdge_good (verts : List Vec3) (o n : Vec3) (tol : ℚ)
    (htol : 0 ≤ tol) (cur nxt : ℕ) (hcur : cur < verts.length)
    (hnxt : nxt < verts.length) (acc : List ℕ × ClipState)
    (hst : StGood verts o n tol acc.2)
    (hcl : ∀ j ∈ acc.1, IdxGood acc.2.verts o n tol j) :
    StGood verts o n tol
      (stepEdge verts tol cur nxt (dOf verts o n cur)
        (dOf verts o n nxt) acc).2 ∧
    ∀ j ∈ (stepEdge verts tol cur nxt (dOf verts o n cur)
        (dOf verts o n nxt) acc).1,
      IdxGood (stepEdge verts tol cur nxt (dOf verts o n cur)
        (dOf verts o n nxt) acc).2.verts o n tol j := by
  obtain ⟨cl0, cache0, V0⟩ := acc
  obtain ⟨⟨ext0, rfl⟩, hcache⟩ := hst
  have hkeepgood : ∀ j ∈ (if -tol ≤ dOf verts o n cur then [cur] else []),
      IdxGood (verts ++ ext0) o n tol j := by
    intro j hj
    split at hj
    · rename_i hle
      simp only [List.mem_singleton] at hj
      subst hj
      refine ⟨?_, ?_⟩
      · rw [List.length_append]
        omega
      · rw [dOf_append_left verts ext0 o n hcur]
        exact hle
    · simp at hj
  simp only [stepEdge]
  split
  · rename_i hcross
    split
    · rename_i i heq
      refine ⟨⟨⟨ext0, rfl⟩, hcache⟩, ?_⟩
      intro j hj
      rcases List.mem_append.mp hj with hj | hj
      · rcases List.mem_append.mp hj with hj | hj
        · exact hcl j hj
        · exact hkeepgood j hj
      · simp only [List.mem_singleton] at hj
        subst hj
        exact hcache _ _ heq
    · rename_i heq
      have hne : dOf verts o n cur ≠ dOf verts o n nxt := by
        rcases hcross with ⟨h1, h2⟩ | ⟨h1, h2⟩
        · exact fun h => absurd (h ▸ h1) (not_le.mpr h2)
        · exact fun h => absurd (h ▸ h2) (not_le.mpr h1)
      have hdp : dOf ((verts ++ ext0) ++
          [interp verts cur nxt (dOf verts o n cur) (dOf verts o n nxt)])
          o n (verts ++ ext0).length = 0 := by
        rw [dOf_append_last]
        exact interp_dOf_eq_zero verts o n cur nxt hne
      have hlengood : IdxGood ((verts ++ ext0) ++
          [interp verts cur nxt (dOf verts o n cur) (dOf verts o n nxt)])
          o n tol (verts ++ ext0).length := by
        refine ⟨by simp, ?_⟩
        rw [hdp]
        linarith
      constructor
      · refine ⟨⟨ext0 ++ [interp verts cur nxt (dOf verts o n cur)
          (dOf verts o n nxt)], by simp⟩, ?_⟩
        intro k' i' h'
        simp only [cacheLookup] at h'
        split at h'
        · cases h'
          exact hlengood
        · exact IdxGood_extend _ (hcache _ _ h')
      · intro j hj
        rcases List.mem_append.mp hj with hj | hj
        · rcases List.mem_append.mp hj with hj | hj
          · exact IdxGood_extend _ (hcl j hj)
          · exact IdxGood_extend _ (hkeepgood j hj)
        · simp only [List.mem_singleton] at hj
          subst hj
          exact hlengood
  · refine ⟨⟨⟨ext0, rfl⟩, hcache⟩, ?_⟩
    intro j hj
    rcases List.mem_append.mp hj with hj | hj
    · exact hcl j hj
    · exact hkeepgood j hj

theorem clipFace_good (verts : List Vec3) (o n : Vec3) (tol : ℚ)
    (htol : 0 ≤ tol) (f : Face) (h1 : f.1 < verts.length)
    (h2 : f.2.1 < verts.length) (h3 : f.2.2 < verts.length)
    (st : ClipState) (hst : StGood verts o n tol st) :
    StGood verts o n tol
      (clipFace verts tol f (dOf verts o n f.1) (dOf verts o n f.2.1)
        (dOf verts o n f.2.2) st).2 ∧
    ∀ j ∈ (clipFace verts tol f (dOf verts o n f.1) (dOf verts o n f.2.1)
        (dOf verts o n f.2.2) st).1,
      IdxGood (clipFace verts tol f (dOf verts o n f.1) (dOf verts o n f.2.1)
        (dOf verts o n f.2.2) st).2.verts o n tol j := by
  simp only [clipFace]
  have s1 := stepEdge_good verts o n tol htol f.1 f.2.1 h1 h2 ([], st) hst
    (by simp)
  have s2 := stepEdge_good verts o n tol htol f.2.1 f.2.2 h2 h3 _ s1.1 s1.2
  have s3 := stepEdge_good verts o n tol htol f.2.2 f.1 h3 h1 _ s2.1 s2.2
  exact s3

theorem clipFace_verts_mono (verts : List Vec3) (tol : ℚ) (f : Face)
    (d0 d1 d2 : ℚ) (st : ClipState) :
    ∃ ext, (clipFace verts tol f d0 d1 d2 st).2.verts = st.verts ++ ext := by
  obtain ⟨a, ha⟩ := stepEdge_verts_mono verts tol f.1 f.2.1 d0 d1 ([], st)
  obtain ⟨b, hb⟩ := stepEdge_verts_mono verts tol f.2.1 f.2.2 d1 d2
    (stepEdge verts tol f.1 f.2.1 d0 d1 ([], st))
  obtain ⟨c, hc⟩ := stepEdge_verts_mono verts tol f.2.2 f.1 d2 d0
    (stepEdge verts tol f.2.1 f.2.2 d1 d2
      (stepEdge verts tol f.1 f.2.1 d0 d1 ([], st)))
  refine ⟨a ++ (b ++ c), ?_⟩
  simp only [clipFace]
  rw [hc, hb, ha]
  simp [List.append_assoc]

theorem mem_fanFrom (a : ℕ) : ∀ (l : List ℕ) (t : Face),
    t ∈ fanFrom a l → t.1 = a ∧ t.2.1 ∈ l ∧ t.2.2 ∈ l := by
  intro l
  induction l with
  | nil => intro t ht; simp [fanFrom] at ht
  | cons b rest ih =>
      cases rest with
      | nil => intro t ht; simp [fanFrom] at ht
      | cons c rest2 =>
          intro t ht
          rw [show fanFrom a (b :: c :: rest2)
            = (a, b, c) :: fanFrom a (c :: rest2) from rfl] at ht
          rcases List.mem_cons.mp ht with h | h
          · subst h
            exact ⟨rfl, by simp, by simp⟩
          · obtain ⟨h1, h2, h3⟩ := ih t h
            exact ⟨h1, List.mem_cons_of_mem _ h2, List.mem_cons_of_mem _ h3⟩

theorem mem_fanTri (cl : List ℕ) (t : Face) (ht : t ∈ fanTri cl) :
    t.1 ∈ cl ∧ t.2.1 ∈ cl ∧ t.2.2 ∈ cl := by
  cases cl with
  | nil => simp [fanTri] at ht
  | cons a rest =>
      obtain ⟨h1, h2, h3⟩ := mem_fanFrom a rest t
        (by simpa [fanTri] using ht)
      exact ⟨h1 ▸ List.mem_cons_self _ _, List.mem_cons_of_mem _ h2,
        List.mem_cons_of_mem _ h3⟩

theorem foldl_clipStep_good (verts : List Vec3) (o n : Vec3) (tol : ℚ)
    (htol : 0 ≤ tol) :
    ∀ (fs : List Face) (acc : List Face × ClipState),
    (∀ f ∈ fs, f.1 < verts.length ∧ f.2.1 < verts.length ∧
      f.2.2 < verts.length) →
    StGood verts o n tol acc.2 →
    (∀ f ∈ acc.1, FaceGood acc.2.verts o n tol f) →
    StGood verts o n tol (fs.foldl (clipStep verts o n tol) acc).2 ∧
    ∀ f ∈ (fs.foldl (clipStep verts o n tol) acc).1,
      FaceGood (fs.foldl (clipStep verts o n tol) acc).2.verts o n tol f := by
  intro fs
  induction fs with
  | nil => intro acc _ h2 h3; exact ⟨h2, h3⟩
  | cons f rest ih =>
      intro acc hv hst hfg
      rw [List.foldl_cons]
      obtain ⟨hf1, hf2, hf3⟩ := hv f (List.mem_cons_self _ _)
      have hstep : StGood verts o n tol (clipStep verts o n tol acc f).2 ∧
          ∀ g ∈ (clipStep verts o n tol acc f).1,
            FaceGood (clipStep verts o n tol acc f).2.verts o n tol g := by
        simp only [clipStep]
        split
        · rename_i hkeep
          refine ⟨hst, ?_⟩
          intro g hg
          rcases List.mem_append.mp hg with h | h
          · exact hfg g h
          · simp only [List.mem_singleton] at h
            subst h
            obtain ⟨⟨ext0, hpre⟩, _⟩ := hst
            refine ⟨⟨?_, ?_⟩, ⟨?_, ?_⟩, ⟨?_, ?_⟩⟩
            · rw [hpre, List.length_append]; omega
            · rw [hpre, dOf_append_left verts ext0 o n hf1]; exact hkeep.1
            · rw [hpre, List.length_append]; omega
            · rw [hpre, dOf_append_left verts ext0 o n hf2]; exact hkeep.2.1
            · rw [hpre, List.length_append]; omega
            · rw [hpre, dOf_append_left verts ext0 o n hf3]; exact hkeep.2.2
        · split
          · rename_i hdisc
            exact ⟨hst, hfg⟩
          · rename_i hnk hnd
            have hcg := clipFace_good verts o n tol htol f hf1 hf2 hf3
              acc.2 hst
            obtain ⟨ext1, hext1⟩ := clipFace_verts_mono verts tol f
              (dOf verts o n f.1) (dOf verts o n f.2.1)
              (dOf verts o n f.2.2) acc.2
            split
            · refine ⟨hcg.1, ?_⟩
              intro g hg
              rcases List.mem_append.mp hg with h | h
              · rw [hext1]
                exact FaceGood_extend _ (hfg g h)
              · obtain ⟨m1, m2, m3⟩ := mem_fanTri _ g h
                exact ⟨hcg.2 _ m1, hcg.2 _ m2, hcg.2 _ m3⟩
            · refine ⟨hcg.1, ?_⟩
              intro g hg
              rw [hext1]
              exact FaceGood_extend _ (hfg g hg)
      exact ih _ (fun g hg => hv g (List.mem_cons_of_mem _ hg))
        hstep.1 hstep.2

theorem IdxGood_of_isComp {V : List Vec3} {o n : Vec3} {tol : ℚ} {f : Face}
    {x : ℕ} (hG : FaceGood V o n tol f) (hc : isComp f x) :
    IdxGood V o n tol x := by
  rcases hc with h | h | h
  · exact h ▸ hG.1
  · exact h ▸ hG.2.1
  · exact h ▸ hG.2.2

theorem validFaces_of_good {m : Mesh} {o n : Vec3} {tol : ℚ}
    (h : ∀ f ∈ m.faces, FaceGood m.vertices o n tol f) : validFaces m :=
  fun f hf => ⟨(h f hf).1.1, (h f hf).2.1.1, (h f hf).2.2.1⟩

theorem IdxGood_merge (V1 : List Vec3) (o n : Vec3) (tol : ℚ) {a : ℕ}
    (h : IdxGood V1 o n tol a) :
    IdxGood (firstDedup V1) o n tol
      (idxOf (V1.getD a zeroV) (firstDedup V1)) := by
  have hu : V1.getD a zeroV ∈ firstDedup V1 :=
    (mem_firstDedup V1 _).mpr (getD_mem V1 a h.1)
  refine ⟨idxOf_lt_length _ _ hu, ?_⟩
  have hgd : (firstDedup V1).getD
      (idxOf (V1.getD a zeroV) (firstDedup V1)) zeroV = V1.getD a zeroV :=
    getD_idxOf _ _ hu
  unfold dOf at *
  rw [hgd]
  exact h.2

theorem merge_stage (o n : Vec3) (tol : ℚ) (m : Mesh)
    (hG : ∀ f ∈ m.faces, FaceGood m.vertices o n tol f) :
    (mergeVertices m).vertices.Nodup ∧
    (∀ f ∈ (mergeVertices m).faces,
      FaceGood (mergeVertices m).vertices o n tol f) ∧
    (mergeVertices m).faces.length = m.faces.length := by
  refine ⟨firstDedup_nodup _, ?_, by simp [mergeVertices]⟩
  intro f' hf'
  simp only [mergeVertices, List.mem_map] at hf'
  obtain ⟨f, hf, rfl⟩ := hf'
  obtain ⟨g1, g2, g3⟩ := hG f hf
  exact ⟨IdxGood_merge m.vertices o n tol g1,
    IdxGood_merge m.vertices o n tol g2,
    IdxGood_merge m.vertices o n tol g3⟩

theorem IdxGood_ru (m : Mesh) (o n : Vec3) (tol : ℚ) {a : ℕ}
    (h : IdxGood m.vertices o n tol a)
    (href : referencedB a m.faces = true) :
    IdxGood ((keepRefd m.faces (List.range m.vertices.length)).map
        (fun i => m.vertices.getD i zeroV)) o n tol
      (idxIn a (keepRefd m.faces (List.range m.vertices.length))) := by
  set keep := keepRefd m.faces (List.range m.vertices.length) with hk
  have hmem : a ∈ keep := by
    rw [hk]
    exact (mem_keepRefd _ _ _).mpr ⟨List.mem_range.mpr h.1, href⟩
  have hj : idxIn a keep < keep.length := idxIn_lt_length _ _ hmem
  refine ⟨by simpa using hj, ?_⟩
  unfold dOf at *
  rw [getD_map_getD m.vertices keep _ hj, getD_idxIn _ _ hmem]
  exact h.2

theorem ru_stage (o n : Vec3) (tol : ℚ) (m : Mesh)
    (hnd : m.vertices.Nodup)
    (hG : ∀ f ∈ m.faces, FaceGood m.vertices o n tol f) :
    (remove_unreferenced_vertices m).vertices.Nodup ∧
    (∀ f ∈ (remove_unreferenced_vertices m).faces,
      FaceGood (remove_unreferenced_vertices m).vertices o n tol f) ∧
    (∀ i, i < (remove_unreferenced_vertices m).vertices.length →
      referencedB i (remove_unreferenced_vertices m).faces = true) ∧
    (remove_unreferenced_vertices m).faces.length = m.faces.length := by
  set keep := keepRefd m.faces (List.range m.vertices.length) with hk
  have hknd : keep.Nodup := keepRefd_nodup _ _ (List.nodup_range _)
  have hklt : ∀ a ∈ keep, a < m.vertices.length := by
    intro a ha
    rw [hk] at ha
    exact List.mem_range.mp ((mem_keepRefd _ _ _).mp ha).1
  refine ⟨?_, ?_, ?_, by simp [remove_unreferenced_vertices]⟩
  · refine List.Nodup.map_on ?_ hknd
    intro x hx y hy hxy
    exact getD_inj m.vertices hnd (hklt x hx) (hklt y hy) hxy
  · intro f' hf'
    simp only [remove_unreferenced_vertices, List.mem_map] at hf'
    obtain ⟨f, hf, rfl⟩ := hf'
    obtain ⟨g1, g2, g3⟩ := hG f hf
    have hr1 : referencedB f.1 m.faces = true :=
      (referencedB_iff _ _).mpr ⟨f, hf, Or.inl rfl⟩
    have hr2 : referencedB f.2.1 m.faces = true :=
      (referencedB_iff _ _).mpr ⟨f, hf, Or.inr (Or.inl rfl)⟩
    have hr3 : referencedB f.2.2 m.faces = true :=
      (referencedB_iff _ _).mpr ⟨f, hf, Or.inr (Or.inr rfl)⟩
    exact ⟨IdxGood_ru m o n tol g1 hr1, IdxGood_ru m o n tol g2 hr2,
      IdxGood_ru m o n tol g3 hr3⟩
  · intro j hj
    have hjk : j < keep.length := by
      simpa [remove_unreferenced_vertices] using hj
    have hak : keep.getD j 0 ∈ keep := natGetD_mem keep j hjk
    obtain ⟨hrange, href⟩ := (mem_keepRefd m.faces _ _).mp (hk ▸ hak)
    obtain ⟨f, hf, hc⟩ := (referencedB_iff _ _).mp href
    rw [referencedB_iff]
    refine ⟨(idxIn f.1 keep, idxIn f.2.1 keep, idxIn f.2.2 keep), ?_, ?_⟩
    · simp only [remove_unreferenced_vertices, List.mem_map]
      exact ⟨f, hf, rfl⟩
    · have hij : idxIn (keep.getD j 0) keep = j := idxIn_getD keep hknd hjk
      rcases hc with h | h | h
      · exact Or.inl (by rw [h, hij])
      · exact Or.inr (Or.inl (by rw [h, hij]))
      · exact Or.inr (Or.inr (by rw [h, hij]))

theorem fill_stage (o n : Vec3) (tol : ℚ) (m : Mesh)
    (hG : ∀ f ∈ m.faces, FaceGood m.vertices o n tol f) :
    ∀ f ∈ (fill_holes m).faces, FaceGood (fill_holes m).vertices o n tol f := by
  intro t ht
  simp only [fill_holes, List.mem_append] at ht
  rcases ht with h | h
  · exact hG t h
  · obtain ⟨a, b, c, rfl, hab, hbc, hcn, hmem, h1, h2, h3⟩ :=
      (mem_holeTriangles m _).mp h
    obtain ⟨g, hg, hge⟩ := (mem_allEdges _ _).mp hmem
    obtain ⟨hca, hcb⟩ := comp_of_undirEdges hge
    have hpos : 0 < edgeCount m.faces (b, c) := by omega
    have hmem2 : (b, c) ∈ allEdges m.faces :=
      (countE_pos_iff_mem _ _).mp hpos
    obtain ⟨g', hg', hge'⟩ := (mem_allEdges _ _).mp hmem2
    obtain ⟨_, hcc⟩ := comp_of_undirEdges hge'
    exact ⟨IdxGood_of_isComp (hG g hg) hca,
      IdxGood_of_isComp (hG g hg) hcb,
      IdxGood_of_isComp (hG g' hg') hcc⟩

theorem foldl_clipStep_keep (verts : List Vec3) (o n : Vec3) (tol : ℚ) :
    ∀ (fs : List Face) (acc : List Face × ClipState),
    (∀ f ∈ fs, -tol ≤ dOf verts o n f.1 ∧ -tol ≤ dOf verts o n f.2.1 ∧
      -tol ≤ dOf verts o n f.2.2) →
    fs.foldl (clipStep verts o n tol) acc = (acc.1 ++ fs, acc.2) := by
  intro fs
  induction fs with
  | nil => intro acc _; simp
  | cons f rest ih =>
      intro acc h
      rw [List.foldl_cons]
      have hstep : clipStep verts o n tol acc f = (acc.1 ++ [f], acc.2) := by
        simp only [clipStep]
        rw [if_pos (h f (List.mem_cons_self _ _))]
      rw [hstep, ih _ (fun g hg => h g (List.mem_cons_of_mem _ hg))]
      simp

theorem keep_halfspace_fixed (m : Mesh) (o n : Vec3) (tol : ℚ)
    (hG : ∀ f ∈ m.faces, FaceGood m.vertices o n tol f)
    (hnd : m.vertices.Nodup)
    (href : ∀ i, i < m.vertices.length → referencedB i m.faces = true)
    (hholes : holeTriangles m = [])
    (hne : m.faces ≠ []) :
    keep_halfspace m o n tol = m := by
  have hkeep : ∀ f ∈ m.faces, -tol ≤ dOf m.vertices o n f.1 ∧
      -tol ≤ dOf m.vertices o n f.2.1 ∧ -tol ≤ dOf m.vertices o n f.2.2 :=
    fun f hf => ⟨(hG f hf).1.2, (hG f hf).2.1.2, (hG f hf).2.2.2⟩
  simp only [keep_halfspace]
  rw [foldl_clipStep_keep m.vertices o n tol m.faces ([], ⟨[], m.vertices⟩)
    hkeep]
  simp only [List.nil_append]
  rw [if_neg hne]
  have hm : (⟨m.vertices, m.faces⟩ : Mesh) = m := rfl
  rw [hm, mergeVertices_eq_self m hnd (validFaces_of_good hG),
    remove_unreferenced_eq_self m (validFaces_of_good hG) href,
    fill_holes_eq_self m hholes]

/-- Claim C4 (amended): for every mesh with in-bounds face indices, every
plane, and every nonnegative tolerance, half-space clipping is idempotent on
the retained side: re-clipping the clipped mesh with the same plane and
tolerance returns it unchanged. -/
theorem C4_keep_halfspace_idempotent (m : Mesh) (o n : Vec3) (tol : ℚ)
    (htol : 0 ≤ tol) (hvalid : validFaces m) :
    keep_halfspace (keep_halfspace m o n tol) o n tol
      = keep_halfspace m o n tol := by
  by_cases hr : (m.faces.foldl (clipStep m.vertices o n tol)
      ([], ⟨[], m.vertices⟩)).1 = []
  · have h1 : keep_halfspace m o n tol = m := by
      simp only [keep_halfspace]
      rw [if_pos hr]
    rw [h1]
    exact h1
  · obtain ⟨hstG, hfaceG⟩ := foldl_clipStep_good m.vertices o n tol htol
      m.faces ([], ⟨[], m.vertices⟩) hvalid
      ⟨⟨[], by simp⟩, by intro k i h; simp [cacheLookup] at h⟩
      (by intro f hf; simp at hf)
    have hgoal : keep_halfspace m o n tol
        = fill_holes (remove_unreferenced_vertices (mergeVertices
          ⟨(m.faces.foldl (clipStep m.vertices o n tol)
              ([], ⟨[], m.vertices⟩)).2.verts,
            (m.faces.foldl (clipStep m.vertices o n tol)
              ([], ⟨[], m.vertices⟩)).1⟩)) := by
      simp only [keep_halfspace]
      rw [if_neg hr]
    set M1 : Mesh := ⟨(m.faces.foldl (clipStep m.vertices o n tol)
        ([], ⟨[], m.vertices⟩)).2.verts,
      (m.faces.foldl (clipStep m.vertices o n tol)
        ([], ⟨[], m.vertices⟩)).1⟩ with hM1
    have hM1G : ∀ f ∈ M1.faces, FaceGood M1.vertices o n tol f := hfaceG
    obtain ⟨hnd2, hG2, hlen2⟩ := merge_stage o n tol M1 hM1G
    obtain ⟨hnd3, hG3, href3, hlen3⟩ := ru_stage o n tol
      (mergeVertices M1) hnd2 hG2
    have hG4 := fill_stage o n tol
      (remove_unreferenced_vertices (mergeVertices M1)) hG3
    have hnd4 : (fill_holes (remove_unreferenced_vertices
        (mergeVertices M1))).vertices.Nodup := hnd3
    have href4 : ∀ i, i < (fill_holes (remove_unreferenced_vertices
          (mergeVertices M1))).vertices.length →
        referencedB i (fill_holes (remove_unreferenced_vertices
          (mergeVertices M1))).faces = true := by
      intro i hi
      simp only [fill_holes]
      exact referencedB_append_left (href3 i hi)
    have hholes4 : holeTriangles (fill_holes (remove_unreferenced_vertices
        (mergeVertices M1))) = [] :=
      fill_no_new_holes _
    have hne4 : (fill_holes (remove_unreferenced_vertices
        (mergeVertices M1))).faces ≠ [] := by
      intro hcon
      have hl : (fill_holes (remove_unreferenced_vertices
          (mergeVertices M1))).faces.length = 0 := by rw [hcon]; rfl
      simp only [fill_holes, List.length_append] at hl
      have : (remove_unreferenced_vertices (mergeVertices M1)).faces.length
          = 0 := by omega
      rw [hlen3, hlen2] at this
      exact hr (List.length_eq_zero.mp this)
    rw [hgoal]
    exact keep_halfspace_fixed _ o n tol hG4 hnd4 href4 hholes4 hne4

set_option maxHeartbeats 1000000 in
/-- First clip of the C4 counterexample triangle at tolerance `-1`: the edges
crossing the band are split (at the plane, distance 0), the unreferenced
vertex is pruned and the quad is fan-triangulated. -/
theorem c4_first_eval :
    keep_halfspace meshC4 (0, 0, 0) (1, 0, 0) (-1) =
      ⟨[(5, 0, 0), (5, 1, 0), (0, 0, 0), (0, 1/2, 0)],
       [(0, 2, 3), (0, 3, 1)]⟩ := by
  norm_num [keep_halfspace, clipStep, clipFace, stepEdge, crossesEdge, fanTri,
    fanFrom, dOf, vdot, vsub, vadd, vsmul, interp, sortPair, cacheLookup,
    meshC4, zeroV, List.foldl, List.getD, List.get?, mergeVertices, firstDedup,
    removeEq, idxOf, remove_unreferenced_vertices, keepRefd, referencedB,
    idxIn, fill_holes, holeTriangles, holesFrom, candsFor, isBoundary,
    edgeCount, countE, allEdges, undirEdges, List.range, List.range.loop,
    List.cons_ne_nil, Prod.mk.injEq, -Prod.mk_zero_zero]

set_option maxHeartbeats 1000000 in
/-- Second clip of the already-clipped mesh with the same plane and the same
negative tolerance: the split vertices sit at distance 0, below the `-tol = 1`
retention threshold, so their faces are re-clipped and a third (degenerate)
face appears. -/
theorem c4_second_eval :
    keep_halfspace (⟨[(5, 0, 0), (5, 1, 0), (0, 0, 0), (0, 1/2, 0)],
        [(0, 2, 3), (0, 3, 1)]⟩ : Mesh) (0, 0, 0) (1, 0, 0) (-1) =
      ⟨[(5, 0, 0), (5, 1, 0), (0, 0, 0), (0, 1/2, 0)],
       [(0, 2, 3), (0, 3, 3), (0, 3, 1)]⟩ := by
  norm_num [keep_halfspace, clipStep, clipFace, stepEdge, crossesEdge, fanTri,
    fanFrom, dOf, vdot, vsub, vadd, vsmul, interp, sortPair, cacheLookup,
    zeroV, List.foldl, List.getD, List.get?, mergeVertices, firstDedup,
    removeEq, idxOf, remove_unreferenced_vertices, keepRefd, referencedB,
    idxIn, fill_holes, holeTriangles, holesFrom, candsFor, isBoundary,
    edgeCount, countE, allEdges, undirEdges, List.range, List.range.loop,
    List.cons_ne_nil, Prod.mk.injEq, -Prod.mk_zero_zero]

/-- Claim C4, counterexample: with a negative tolerance (`tol = -1`), the
claim's unrestricted quantification over tolerances fails: re-clipping the
clipped triangle with the same plane and tolerance adds a face (3 faces
versus 2), because split vertices are created at distance 0, which is below
the retention threshold `-tol = 1`. -/
theorem C4_clip_negative_tol_counterexample :
    keep_halfspace (keep_halfspace meshC4 (0, 0, 0) (1, 0, 0) (-1))
        (0, 0, 0) (1, 0, 0) (-1)
      ≠ keep_halfspace meshC4 (0, 0, 0) (1, 0, 0) (-1) ∧
    (keep_halfspace (keep_halfspace meshC4 (0, 0, 0) (1, 0, 0) (-1))
        (0, 0, 0) (1, 0, 0) (-1)).faces.length = 3 ∧
    (keep_halfspace meshC4 (0, 0, 0) (1, 0, 0) (-1)).faces.length = 2 := by
  rw [c4_first_eval, c4_second_eval]
  refine ⟨?_, rfl, rfl⟩
  intro h
  have hlen := congrArg (fun mm : Mesh => mm.faces.length) h
  simp at hlen

theorem C4_keep_halfspace_idempotent_witness :
    keep_halfspace (keep_halfspace meshTri (0, 0, 0) (1, 0, 0) (1/1000000))
        (0, 0, 0) (1, 0, 0) (1/1000000)
      = keep_halfspace meshTri (0, 0, 0) (1, 0, 0) (1/1000000) :=
  C4_keep_halfspace_idempotent meshTri (0, 0, 0) (1, 0, 0) (1/1000000)
    (by norm_num)
    (by
      intro f hf
      simp only [meshTri, List.mem_cons, List.not_mem_nil, or_false] at hf
      subst hf
      refine ⟨by simp [meshTri], by simp [meshTri], by simp [meshTri]⟩)

end ReBuild
